import Mathlib

/-!
Verification development for the mirror-crawler core of shady-cli
(src/shady_cli/mirror.py).

Python strings are shallowly embedded as lists of Unicode code points
(`PyStr`).  The crawler delegates URL manipulation to the CPython 3.11
standard library module urllib.parse; since the crawler's observable
behaviour is inseparable from those helpers, the relevant stdlib
functions (`urlsplit`, `urlparse`, `urlunsplit`, `urlunparse`,
`parse_qsl`, `urlencode`, `quote_plus`, `unquote`, `urljoin`) are
embedded here faithfully from the CPython 3.11 sources, with two
deliberate totalisations noted in the doc comments: code paths that
raise exceptions in Python (invalid IPv6 netloc, non-NFKC netloc,
encoding a lone surrogate) are unreachable under the hypotheses of the
theorems below, and Python's full-Unicode str.lower() is modelled as
ASCII lowercasing (every string the crawler compares against -- scheme
names, tracking-parameter keys, content types, extensions -- is ASCII).

External libraries with no algorithmic content relevant to the claims
(httpx transport, BeautifulSoup's HTML tokeniser, the re module) are
modelled at their interface: a fetched response carries the status
code, header, body size and the parsed document / raw regex captures
as data, and the crawler's own logic over them is transcribed from the
source.
-/

set_option maxHeartbeats 1000000

namespace Shady

/-- Python strings, modelled as their lists of Unicode code points. -/
abbrev PyStr := List Nat

/-- Convert a Lean string literal into the code-point list model. -/
def pstr (s : String) : PyStr := s.data.map Char.toNat

/-- Python str.lower(), restricted to ASCII case folding (see module header). -/
def lowerChar (c : Nat) : Nat := if 65 ≤ c ∧ c ≤ 90 then c + 32 else c

/-- Lowercase an embedded string, character by character. -/
def pyLower (s : PyStr) : PyStr := s.map lowerChar

/-- Python `needle in s` substring test. -/
def pyContains : PyStr → PyStr → Bool
  | s, needle =>
    needle.isPrefixOf s ||
      match s with
      | [] => false
      | _ :: t => pyContains t needle

/-- Python s.endswith(t). -/
def pyEndsWith (s t : PyStr) : Bool := t.isSuffixOf s

/-- Python s.startswith(t). -/
def pyStartsWith (s t : PyStr) : Bool := t.isPrefixOf s

/-- Python s.rstrip(c) for a single strip character: remove every
trailing occurrence of c. -/
def pyRStrip (c : Nat) (s : PyStr) : PyStr :=
  ((s.reverse).dropWhile (· = c)).reverse

/-- Python s.split(sep, 1) for a one-character separator: the part
before the first occurrence, and the remainder if the separator occurs. -/
def splitFirst (c : Nat) (s : PyStr) : PyStr × Option PyStr :=
  let pre := s.takeWhile (· ≠ c)
  match s.dropWhile (· ≠ c) with
  | [] => (pre, none)
  | _ :: rest => (pre, some rest)

/-- Python s.split(sep) for a one-character separator.  As in Python,
splitting the empty string yields [""] . -/
def splitAll (c : Nat) : PyStr → List PyStr
  | [] => [[]]
  | a :: s =>
    if a = c then [] :: splitAll c s
    else match splitAll c s with
      | [] => [[a]]
      | p :: ps => (a :: p) :: ps

/-- Python s.find(c): index of the first occurrence of a character. -/
def pyFind (c : Nat) : PyStr → Option Nat
  | [] => none
  | a :: s => if a = c then some 0 else (pyFind c s).map (· + 1)

/-- Python s.rfind(c): index of the last occurrence of a character. -/
def pyRFind (c : Nat) (s : PyStr) : Option Nat :=
  (pyFind c s.reverse).map (fun i => s.length - 1 - i)

/-- Python s.find(c, start): first occurrence at or after index start. -/
def pyFindFrom (c : Nat) (start : Nat) (s : PyStr) : Option Nat :=
  (pyFind c (s.drop start)).map (· + start)

/-- Python ", ".join-style intercalation with a one-character separator. -/
def joinWith (c : Nat) : List PyStr → PyStr
  | [] => []
  | [s] => s
  | s :: rest => s ++ c :: joinWith c rest

/-- Single-character str.replace, as in name.replace('+', ' '). -/
def replaceChar (old new : Nat) (s : PyStr) : PyStr :=
  s.map (fun c => if c = old then new else c)

/-! urllib.parse: percent-quoting machinery (CPython 3.11). -/

/-- Membership in urllib.parse._ALWAYS_SAFE: ASCII letters, digits, and
the four characters underscore, period, hyphen, tilde. -/
def alwaysSafe (c : Nat) : Bool :=
  (65 ≤ c ∧ c ≤ 90) ∨ (97 ≤ c ∧ c ≤ 122) ∨ (48 ≤ c ∧ c ≤ 57) ∨
    c = 95 ∨ c = 46 ∨ c = 45 ∨ c = 126

/-- Strict UTF-8 encoding of one code point (str.encode('utf-8')).
Total on Nat; CPython raises on lone surrogates and code points above
0x10FFFF, which the validity hypotheses of the theorems exclude. -/
def utf8Enc (c : Nat) : List Nat :=
  if c < 0x80 then [c]
  else if c < 0x800 then [0xC0 + c / 64, 0x80 + c % 64]
  else if c < 0x10000 then [0xE0 + c / 4096, 0x80 + c / 64 % 64, 0x80 + c % 64]
  else [0xF0 + c / 262144, 0x80 + c / 4096 % 64, 0x80 + c / 64 % 64, 0x80 + c % 64]

/-- UTF-8 encoding of a whole string as a byte list. -/
def utf8EncStr (s : PyStr) : List Nat := s.flatMap utf8Enc

/-- The Unicode replacement character U+FFFD produced by errors='replace'. -/
def repChar : Nat := 0xFFFD

/-- Unicode scalar value: a code point a Python str can encode to
UTF-8 (below 0x110000 and not a lone surrogate). -/
def validScalar (c : Nat) : Prop := c < 0x110000 ∧ ¬(0xD800 ≤ c ∧ c ≤ 0xDFFF)

/-- Every code point of the string is a Unicode scalar value. -/
def validStr (s : PyStr) : Prop := ∀ c ∈ s, validScalar c

instance (c : Nat) : Decidable (validScalar c) := by
  unfold validScalar
  infer_instance

instance (s : PyStr) : Decidable (validStr s) := by
  unfold validStr
  infer_instance

/-- Continuation-byte test 0x80..0xBF. -/
def utf8Cont (b : Nat) : Bool := 0x80 ≤ b ∧ b ≤ 0xBF

/-- Admissible range for the first continuation byte after a three-byte
lead, per strict UTF-8 (excludes overlong forms and surrogates). -/
def utf8Cont3 (b c : Nat) : Bool :=
  if b = 0xE0 then 0xA0 ≤ c ∧ c ≤ 0xBF
  else if b = 0xED then 0x80 ≤ c ∧ c ≤ 0x9F
  else utf8Cont c

/-- Admissible range for the first continuation byte after a four-byte
lead, per strict UTF-8 (excludes overlong forms and values above U+10FFFF). -/
def utf8Cont4 (b c : Nat) : Bool :=
  if b = 0xF0 then 0x90 ≤ c ∧ c ≤ 0xBF
  else if b = 0xF4 then 0x80 ≤ c ∧ c ≤ 0x8F
  else utf8Cont c

/-- Bytes-to-text UTF-8 decoding with errors='replace'
(bytes.decode('utf-8', 'replace')), as a byte-wise state machine: the
state carries (continuation bytes still needed, value accumulated so
far, admissibility test for the next continuation byte).  Each maximal
subpart of an ill-formed sequence yields one U+FFFD and decoding
resumes at the offending byte, as CPython implements the Unicode
recommendation; a fresh lead dispatch is inlined at the resume point
to keep the recursion structural. -/
def utf8DecGo : Option (Nat × Nat × (Nat → Bool)) → List Nat → List Nat
  | none, [] => []
  | some _, [] => [repChar]
  | none, b :: bs =>
    if b < 0x80 then b :: utf8DecGo none bs
    else if 0xC2 ≤ b ∧ b ≤ 0xDF then utf8DecGo (some (1, b - 0xC0, utf8Cont)) bs
    else if 0xE0 ≤ b ∧ b ≤ 0xEF then utf8DecGo (some (2, b - 0xE0, utf8Cont3 b)) bs
    else if 0xF0 ≤ b ∧ b ≤ 0xF4 then utf8DecGo (some (3, b - 0xF0, utf8Cont4 b)) bs
    else repChar :: utf8DecGo none bs
  | some st, b :: bs =>
    if st.2.2 b then
      if st.1 = 1 then (st.2.1 * 64 + (b - 0x80)) :: utf8DecGo none bs
      else utf8DecGo (some (st.1 - 1, st.2.1 * 64 + (b - 0x80), utf8Cont)) bs
    else
      repChar ::
        (if b < 0x80 then b :: utf8DecGo none bs
         else if 0xC2 ≤ b ∧ b ≤ 0xDF then utf8DecGo (some (1, b - 0xC0, utf8Cont)) bs
         else if 0xE0 ≤ b ∧ b ≤ 0xEF then utf8DecGo (some (2, b - 0xE0, utf8Cont3 b)) bs
         else if 0xF0 ≤ b ∧ b ≤ 0xF4 then utf8DecGo (some (3, b - 0xF0, utf8Cont4 b)) bs
         else repChar :: utf8DecGo none bs)

/-- Bytes-to-text UTF-8 decoding with errors='replace', from the
initial (no pending sequence) state. -/
def utf8Dec (bs : List Nat) : List Nat := utf8DecGo none bs

/-- Invariant on decoder states under which every code point the
decoder can still emit from this state is a Unicode scalar value: with
k continuation bytes pending, any admissible completion of the
accumulator stays below 0x110000 and outside the surrogate range. -/
def SafeSt : Option (Nat × Nat × (Nat → Bool)) → Prop
  | none => True
  | some st =>
    if st.1 = 1 then
      ∀ y, st.2.2 y = true → validScalar (st.2.1 * 64 + (y - 0x80))
    else if st.1 = 2 then
      ∀ y, st.2.2 y = true → ∀ z, utf8Cont z = true →
        validScalar ((st.2.1 * 64 + (y - 0x80)) * 64 + (z - 0x80))
    else if st.1 = 3 then
      ∀ y, st.2.2 y = true → ∀ z, utf8Cont z = true → ∀ w, utf8Cont w = true →
        validScalar (((st.2.1 * 64 + (y - 0x80)) * 64 + (z - 0x80)) * 64 + (w - 0x80))
    else False


/-- Uppercase hexadecimal digit character, as produced by '%{:02X}'. -/
def hexDigitChar (n : Nat) : Nat := if n < 10 then 48 + n else 55 + n

/-- Hexadecimal value of a digit character (upper or lower case). -/
def hexVal (c : Nat) : Nat :=
  if 48 ≤ c ∧ c ≤ 57 then c - 48
  else if 65 ≤ c ∧ c ≤ 70 then c - 55
  else c - 87

/-- Test for a hexadecimal digit character, as in the _hextobyte table. -/
def isHexDigit (c : Nat) : Bool :=
  (48 ≤ c ∧ c ≤ 57) ∨ (65 ≤ c ∧ c ≤ 70) ∨ (97 ≤ c ∧ c ≤ 102)

/-- Percent-escape of one byte: '%{:02X}'.format(b). -/
def pctByte (b : Nat) : List Nat := [37, hexDigitChar (b / 16), hexDigitChar (b % 16)]

/-- Quoting of one code point under quote_plus: always-safe characters
pass through, a space becomes '+', everything else is the
percent-escape of its UTF-8 bytes.  This is the per-character action
of both branches of CPython's quote_plus (safe=''): when the string
has no space the space case is vacuous, otherwise quote keeps spaces
and the final replace turns them into '+'. -/
def quotePlusChar (c : Nat) : List Nat :=
  if alwaysSafe c then [c]
  else if c = 32 then [43]
  else (utf8Enc c).flatMap pctByte

/-- urllib.parse.quote_plus with safe='' (the urlencode default). -/
def quotePlus (s : PyStr) : PyStr := s.flatMap quotePlusChar

/-- The per-character image of quote_plus followed by the '+'-to-space
replacement that parse_qsl performs before unquoting. -/
def qpChar2 (c : Nat) : List Nat :=
  if alwaysSafe c then [c]
  else if c = 32 then [32]
  else (utf8Enc c).flatMap pctByte

/-- Percent-decoding to bytes (unquote_to_bytes): each '%' followed by
two hex digits becomes that byte; a '%' not followed by two hex digits
is kept literally. -/
def pctDecode : List Nat → List Nat
  | [] => []
  | c :: rest =>
    if c = 37 then
      match rest with
      | [] => [37]
      | [h1] => 37 :: pctDecode [h1]
      | h1 :: h2 :: rest2 =>
        if isHexDigit h1 ∧ isHexDigit h2 then
          (hexVal h1 * 16 + hexVal h2) :: pctDecode rest2
        else 37 :: pctDecode (h1 :: h2 :: rest2)
    else c :: pctDecode rest

/-- Core of urllib.parse.unquote: maximal runs of ASCII characters are
percent-decoded to bytes and UTF-8-decoded with errors='replace'
(mirroring the _asciire split in CPython); non-ASCII characters pass
through unchanged.  The accumulator collects the current ASCII run. -/
def unquoteGo (acc : PyStr) : PyStr → PyStr
  | [] => utf8Dec (pctDecode acc)
  | c :: cs =>
    if c < 0x80 then unquoteGo (acc ++ [c]) cs
    else utf8Dec (pctDecode acc) ++ c :: unquoteGo [] cs

/-- urllib.parse.unquote with encoding='utf-8', errors='replace'; a
string containing no '%' is returned unchanged. -/
def pyUnquote (s : PyStr) : PyStr :=
  if 37 ∈ s then unquoteGo [] s else s

/-! urllib.parse: URL splitting and joining (CPython 3.11). -/

/-- SplitResult of urllib.parse.urlsplit. -/
structure SplitResult where
  scheme : PyStr
  netloc : PyStr
  path : PyStr
  query : PyStr
  fragment : PyStr
deriving DecidableEq, Repr

/-- ParseResult of urllib.parse.urlparse. -/
structure ParseResult where
  scheme : PyStr
  netloc : PyStr
  path : PyStr
  params : PyStr
  query : PyStr
  fragment : PyStr
deriving DecidableEq, Repr

/-- Characters valid in scheme names (urllib.parse.scheme_chars). -/
def schemeChars : PyStr :=
  pstr "abcdefghijklmnopqrstuvwxyzABCDEFGHIJKLMNOPQRSTUVWXYZ0123456789+-."

/-- Python c.isascii() and c.isalpha() combined (an ASCII letter). -/
def isAsciiAlpha (c : Nat) : Bool := (65 ≤ c ∧ c ≤ 90) ∨ (97 ≤ c ∧ c ≤ 122)

/-- Removal of _UNSAFE_URL_BYTES_TO_REMOVE (tab, CR, LF) done by urlsplit. -/
def stripControl (s : PyStr) : PyStr := s.filter (fun c => c ≠ 9 ∧ c ≠ 13 ∧ c ≠ 10)

/-- Leading strip of _WHATWG_C0_CONTROL_OR_SPACE (code points up to
0x20) applied by urlsplit to the URL. -/
def lstripC0 (s : PyStr) : PyStr := s.dropWhile (· ≤ 32)

/-- Two-sided strip of _WHATWG_C0_CONTROL_OR_SPACE, applied by urlsplit
to the default scheme argument. -/
def stripC0 (s : PyStr) : PyStr := ((lstripC0 s).reverse.dropWhile (· ≤ 32)).reverse

/-- Scheme recognition in urlsplit: a ':' at a positive index whose
prefix starts with an ASCII letter and consists of scheme characters
yields (lower-cased scheme, remainder); otherwise no scheme is split off. -/
def colonScan (url : PyStr) : Option (PyStr × PyStr) :=
  match pyFind 58 url with
  | none => none
  | some i =>
    if 0 < i ∧ isAsciiAlpha (url.headD 0) ∧
        (url.take i).all (fun c => schemeChars.contains c) then
      some (pyLower (url.take i), url.drop (i + 1))
    else none

/-- urllib.parse._splitnetloc: the netloc extends to the first of
'/', '?', '#'; the remainder keeps the delimiter. -/
def splitNetloc (s : PyStr) : PyStr × PyStr :=
  (s.takeWhile (fun c => c ≠ 47 ∧ c ≠ 63 ∧ c ≠ 35),
   s.dropWhile (fun c => c ≠ 47 ∧ c ≠ 63 ∧ c ≠ 35))

/-- Post-scheme stage of urlsplit: netloc extraction, fragment split,
query split, yielding (netloc, path, query, fragment). -/
def splitRest (rest0 : PyStr) : PyStr × PyStr × PyStr × PyStr :=
  let netloc := if pyStartsWith rest0 (pstr "//") then (splitNetloc (rest0.drop 2)).1 else []
  let rest1 := if pyStartsWith rest0 (pstr "//") then (splitNetloc (rest0.drop 2)).2 else rest0
  let rest2 := (splitFirst 35 rest1).1
  let fragment := ((splitFirst 35 rest1).2).getD []
  let path := (splitFirst 63 rest2).1
  let query := ((splitFirst 63 rest2).2).getD []
  (netloc, path, query, fragment)

/-- urllib.parse.urlsplit with allow_fragments=True.  The ValueError
paths (unbalanced IPv6 brackets, non-NFKC netloc) raise in Python and
are not modelled; no theorem below depends on inputs reaching them. -/
def pyUrlsplit (url0 schemeDefault0 : PyStr) : SplitResult :=
  let url := stripControl (lstripC0 url0)
  let schemeDefault := stripControl (stripC0 schemeDefault0)
  let scheme := match colonScan url with
    | some (sc, _) => sc
    | none => schemeDefault
  let rest := match colonScan url with
    | some (_, r) => r
    | none => url
  let r := splitRest rest
  ⟨scheme, r.1, r.2.1, r.2.2.1, r.2.2.2⟩

/-- urllib.parse._splitparams: split params off the last path segment
(the ';' searched from the last '/', or anywhere if the path has no '/'). -/
def splitParams (url : PyStr) : PyStr × PyStr :=
  if 47 ∈ url then
    match pyRFind 47 url with
    | some j =>
      match pyFindFrom 59 j url with
      | some i => (url.take i, url.drop (i + 1))
      | none => (url, [])
    | none => (url, [])
  else
    match pyFind 59 url with
    | some i => (url.take i, url.drop (i + 1))
    | none => (url, [])

/-- urllib.parse.uses_params. -/
def usesParams : List PyStr :=
  [pstr "", pstr "ftp", pstr "hdl", pstr "prospero", pstr "http", pstr "imap",
   pstr "https", pstr "shttp", pstr "rtsp", pstr "rtspu", pstr "sip", pstr "sips",
   pstr "mms", pstr "sftp", pstr "tel"]

/-- urllib.parse.uses_netloc. -/
def usesNetloc : List PyStr :=
  [pstr "", pstr "ftp", pstr "http", pstr "gopher", pstr "nntp", pstr "telnet",
   pstr "imap", pstr "wais", pstr "file", pstr "mms", pstr "https", pstr "shttp",
   pstr "snews", pstr "prospero", pstr "rtsp", pstr "rtspu", pstr "rsync",
   pstr "svn", pstr "svn+ssh", pstr "sftp", pstr "nfs", pstr "git", pstr "git+ssh",
   pstr "ws", pstr "wss"]

/-- urllib.parse.uses_relative. -/
def usesRelative : List PyStr :=
  [pstr "", pstr "ftp", pstr "http", pstr "gopher", pstr "nntp", pstr "imap",
   pstr "wais", pstr "file", pstr "https", pstr "shttp", pstr "mms",
   pstr "prospero", pstr "rtsp", pstr "rtspu", pstr "sftp", pstr "svn",
   pstr "svn+ssh", pstr "ws", pstr "wss"]

/-- urllib.parse.urlparse: urlsplit plus the params split, applied when
the scheme uses params and the path contains a ';'. -/
def pyUrlparse (url schemeDefault : PyStr) : ParseResult :=
  let s := pyUrlsplit url schemeDefault
  if s.scheme ∈ usesParams ∧ 59 ∈ s.path then
    let (p, pr) := splitParams s.path
    ⟨s.scheme, s.netloc, p, pr, s.query, s.fragment⟩
  else ⟨s.scheme, s.netloc, s.path, [], s.query, s.fragment⟩

/-- urllib.parse.urlunsplit (CPython 3.11 condition on the netloc marker). -/
def pyUrlunsplit (scheme netloc url query fragment : PyStr) : PyStr :=
  let url :=
    if netloc ≠ [] ∨
        (scheme ≠ [] ∧ scheme ∈ usesNetloc ∧ ¬ pyStartsWith url (pstr "//")) then
      let url := if url ≠ [] ∧ ¬ pyStartsWith url (pstr "/") then 47 :: url else url
      pstr "//" ++ netloc ++ url
    else url
  let url := if scheme ≠ [] then scheme ++ 58 :: url else url
  let url := if query ≠ [] then url ++ 63 :: query else url
  if fragment ≠ [] then url ++ 35 :: fragment else url

/-- urllib.parse.urlunparse: re-attach params to the path, then unsplit. -/
def pyUrlunparse (r : ParseResult) : PyStr :=
  let url := if r.params ≠ [] then r.path ++ 59 :: r.params else r.path
  pyUrlunsplit r.scheme r.netloc url r.query r.fragment

/-- urllib.parse.parse_qsl with keep_blank_values=True: split the query
on '&', skip empty fields, split each field at the first '=' (a field
with no '=' keeps a blank value), and '+'-then-percent-decode both
name and value. -/
def pyParseQsl (qs : PyStr) : List (PyStr × PyStr) :=
  let args := if qs = [] then [] else splitAll 38 qs
  args.filterMap fun nv =>
    if nv = [] then none
    else
      let (n, v) := splitFirst 61 nv
      some (pyUnquote (replaceChar 43 32 n), pyUnquote (replaceChar 43 32 (v.getD [])))

/-- urllib.parse.urlencode on a list of string pairs (quote_via=quote_plus). -/
def pyUrlencode (query : List (PyStr × PyStr)) : PyStr :=
  joinWith 38 (query.map fun kv => quotePlus kv.1 ++ 61 :: quotePlus kv.2)

/-- Segment resolution loop of urljoin: '..' pops (ignoring pops from an
empty stack), '.' is dropped, anything else is pushed. -/
def joinResolve (acc : List PyStr) : List PyStr → List PyStr
  | [] => acc
  | seg :: rest =>
    if seg = pstr ".." then joinResolve acc.dropLast rest
    else if seg = pstr "." then joinResolve acc rest
    else joinResolve (acc ++ [seg]) rest

/-- urllib.parse.urljoin (CPython 3.11). -/
def pyUrljoin (base url : PyStr) : PyStr :=
  if base = [] then url
  else if url = [] then base
  else
    let b := pyUrlparse base []
    let u := pyUrlparse url b.scheme
    if u.scheme ≠ b.scheme ∨ u.scheme ∉ usesRelative then url
    else if u.scheme ∈ usesNetloc ∧ u.netloc ≠ [] then
      pyUrlunparse u
    else
      let netloc := if u.scheme ∈ usesNetloc then b.netloc else u.netloc
      if u.path = [] ∧ u.params = [] then
        let q := if u.query = [] then b.query else u.query
        pyUrlunparse ⟨u.scheme, netloc, b.path, b.params, q, u.fragment⟩
      else
        let baseParts := splitAll 47 b.path
        let baseParts := if baseParts.getLastD [] ≠ [] then baseParts.dropLast else baseParts
        let segments :=
          if pyStartsWith u.path (pstr "/") then splitAll 47 u.path
          else
            match baseParts ++ splitAll 47 u.path with
            | [] => []
            | [x] => [x]
            | x :: rest => x :: (rest.dropLast.filter (· ≠ [])) ++ [rest.getLastD []]
        let resolved := joinResolve [] segments
        let resolved :=
          if segments.getLastD [] = pstr "." ∨ segments.getLastD [] = pstr ".." then
            resolved ++ [[]]
          else resolved
        let joined := joinWith 47 resolved
        let joined := if joined = [] then pstr "/" else joined
        pyUrlunparse ⟨u.scheme, netloc, joined, u.params, u.query, u.fragment⟩

/-! MirrorCrawler: URL canonicalisation, scope, classification, paths
(src/shady_cli/mirror.py). -/

/-- TRACKING_PARAMS (mirror.py lines 17-25). -/
def trackingParams : List PyStr :=
  [pstr "utm_source", pstr "utm_medium", pstr "utm_campaign", pstr "utm_term",
   pstr "utm_content", pstr "gclid", pstr "fbclid"]

/-- Path-normalisation step of _normalize_url (mirror.py lines 93-96):
an empty path becomes "/", and a non-root path ending in '/' has all
its trailing slashes removed by str.rstrip. -/
def normalizePath (p : PyStr) : PyStr :=
  let path := if p = [] then pstr "/" else p
  if path ≠ pstr "/" ∧ pyEndsWith path (pstr "/") then pyRStrip 47 path else path

/-- MirrorCrawler._normalize_url (mirror.py lines 86-97): parse, prefix
https:// when schemeless, drop tracking query parameters and re-encode
the rest, drop the fragment, normalise the path, unparse. -/
def normalizeUrl (url0 : PyStr) : PyStr :=
  let parsed := pyUrlparse url0 []
  let parsed :=
    if parsed.scheme = [] then pyUrlparse (pstr "https://" ++ url0) [] else parsed
  let query := (pyParseQsl parsed.query).filter fun kv => pyLower kv.1 ∉ trackingParams
  let normalized : ParseResult :=
    { parsed with
        fragment := [], query := pyUrlencode query, path := normalizePath parsed.path }
  pyUrlunparse normalized

/-- Crawler configuration and derived fields, as far as the claims
need them.  The host root is carried as path segments; digestFn stands
for hashlib.sha1(query).hexdigest()[:8] (hashlib is an external
library and no claim evaluates the digest). -/
structure Crawler where
  baseUrl : PyStr
  base : ParseResult
  scope : PyStr
  includeAssets : List PyStr
  maxPages : Nat
  maxDepth : Nat
  concurrency : Nat
  rewriteLinks : Bool
  hostRoot : List PyStr
  digestFn : PyStr → PyStr

/-- MirrorCrawler.__init__ (mirror.py lines 45-84): the base URL is
normalised and parsed, concurrency is clamped to at least 1, and the
host root is result_dir / "mirror" / netloc. -/
def mkCrawler (rawBase : PyStr) (resultDir : List PyStr) (maxPages : Nat) (scope : PyStr)
    (includeAssets : List PyStr) (maxDepth concurrency : Nat) (rewriteLinks : Bool)
    (digestFn : PyStr → PyStr) : Crawler :=
  let baseUrl := normalizeUrl rawBase
  let base := pyUrlparse baseUrl []
  { baseUrl := baseUrl, base := base, scope := scope, includeAssets := includeAssets,
    maxPages := maxPages, maxDepth := maxDepth, concurrency := max 1 concurrency,
    rewriteLinks := rewriteLinks,
    hostRoot := resultDir ++ [pstr "mirror", base.netloc], digestFn := digestFn }

/-- MirrorCrawler._in_scope (mirror.py lines 99-107). -/
def inScope (cr : Crawler) (url : PyStr) : Bool :=
  let p := pyUrlparse url []
  if p.scheme ∈ [pstr "mailto", pstr "tel", pstr "javascript", pstr "data"] then false
  else if cr.scope = pstr "same-origin" then
    p.scheme = cr.base.scheme ∧ p.netloc = cr.base.netloc
  else if cr.scope = pstr "same-host" then p.netloc = cr.base.netloc
  else true

/-- MirrorCrawler._classify_asset (mirror.py lines 115-126). -/
def classifyAsset (contentType : Option PyStr) (path : PyStr) : PyStr :=
  let ctype := pyLower (contentType.getD [])
  let pathL := pyLower path
  if pyContains ctype (pstr "javascript") ∨ pyEndsWith pathL (pstr ".js") ∨
      pyEndsWith pathL (pstr ".mjs") ∨ pyEndsWith pathL (pstr ".cjs") then pstr "js"
  else if pyContains ctype (pstr "css") ∨ pyEndsWith pathL (pstr ".css") then pstr "css"
  else if pyContains ctype (pstr "font") ∨ pyContains ctype (pstr "woff") ∨
      pyContains ctype (pstr "ttf") ∨ pyEndsWith pathL (pstr ".woff") ∨
      pyEndsWith pathL (pstr ".woff2") ∨ pyEndsWith pathL (pstr ".ttf") ∨
      pyEndsWith pathL (pstr ".otf") then pstr "font"
  else if pyContains ctype (pstr "image") ∨ pyContains ctype (pstr "svg") ∨
      pyEndsWith pathL (pstr ".png") ∨ pyEndsWith pathL (pstr ".jpg") ∨
      pyEndsWith pathL (pstr ".jpeg") ∨ pyEndsWith pathL (pstr ".gif") ∨
      pyEndsWith pathL (pstr ".webp") ∨ pyEndsWith pathL (pstr ".svg") ∨
      pyEndsWith pathL (pstr ".ico") then pstr "img"
  else pstr "misc"

/-- Python s.lstrip(c) for a single strip character. -/
def pyLStrip (c : Nat) (s : PyStr) : PyStr := s.dropWhile (· = c)

/-- Segments of pathlib.PurePosixPath(s): split on '/', dropping empty
segments and '.' (lexical normalisation done by pathlib). -/
def mkPathSegs (s : PyStr) : List PyStr :=
  (splitAll 47 s).filter (fun seg => seg ≠ [] ∧ seg ≠ pstr ".")

/-- pathlib PurePosixPath(s).name: the last lexical segment, or ''. -/
def pathName (s : PyStr) : PyStr := (mkPathSegs s).getLastD []

/-- pathlib PurePosixPath(s).suffix: the final component's extension
from its last dot, '' when the dot is leading, trailing or absent. -/
def pathSuffix (s : PyStr) : PyStr :=
  let name := pathName s
  match pyRFind 46 name with
  | some i => if 0 < i ∧ i < name.length - 1 then name.drop i else []
  | none => []

/-- pathlib PurePosixPath(s).stem: the final component without its suffix. -/
def pathStem (s : PyStr) : PyStr :=
  let name := pathName s
  match pyRFind 46 name with
  | some i => if 0 < i ∧ i < name.length - 1 then name.take i else name
  | none => name

/-- Digest insertion for query-carrying asset URLs (mirror.py lines
154-157): str(Path(rel).with_name(stem + "." + digest + suffix)). -/
def digestedRel (rel digest : PyStr) : PyStr :=
  joinWith 47 ((mkPathSegs rel).dropLast ++ [pathStem rel ++ 46 :: (digest ++ pathSuffix rel)])

/-- MirrorCrawler._url_to_local_path (mirror.py lines 128-159), as
absolute path segments (host root ++ relative segments). -/
def urlToLocalPath (cr : Crawler) (url : PyStr) (kind : PyStr)
    (contentType : Option PyStr) : List PyStr :=
  let p := pyUrlparse url []
  let rawPath := if p.path = [] then pstr "/" else p.path
  if kind = pstr "page" then
    let pageRel := pyLStrip 47 rawPath
    let pageRel := if pageRel = [] then pstr "index" else pageRel
    let pageRel :=
      if pyEndsWith rawPath (pstr "/") ∨ ¬ (46 ∈ pathName pageRel) then
        pyRStrip 47 pageRel ++ pstr "/index.html"
      else pageRel
    cr.hostRoot ++ pstr "pages" :: mkPathSegs pageRel
  else
    let assetKind := classifyAsset contentType rawPath
    let rel := if pyLStrip 47 rawPath = [] then pstr "asset" else pyLStrip 47 rawPath
    let rel := if pyEndsWith rel (pstr "/") then rel ++ pstr "index" else rel
    let rel :=
      if ¬ (46 ∈ pathName rel) then
        rel ++ (if assetKind = pstr "js" then pstr ".js"
                else if assetKind = pstr "css" then pstr ".css" else pstr ".bin")
      else rel
    let rel := if p.query ≠ [] then digestedRel rel (cr.digestFn p.query) else rel
    cr.hostRoot ++ pstr "assets" :: assetKind :: mkPathSegs rel

/-- MirrorCrawler._looks_like_page (mirror.py lines 307-311). -/
def looksLikePage (url : PyStr) : Bool :=
  let path := pyLower (pyUrlparse url []).path
  if pyEndsWith path (pstr "/") ∨ pathSuffix path = [] then true
  else pathSuffix path ∈
    [pstr ".html", pstr ".htm", pstr ".php", pstr ".asp", pstr ".aspx", pstr ".jsp"]

/-! Sorting and deduplication, as done by Python sorted(set(...)). -/

/-- Lexicographic code-point comparison, the order of Python's sorted
on str. -/
def pyLe : PyStr → PyStr → Bool
  | [], _ => true
  | _ :: _, [] => false
  | x :: xs, y :: ys => if x < y then true else if y < x then false else pyLe xs ys

/-- Propositional form of pyLe, for use with List.insertionSort. -/
def lexLe (a b : PyStr) : Prop := pyLe a b = true

instance : DecidableRel lexLe := fun a b => by unfold lexLe; infer_instance

/-- Deduplication keeping last occurrences; composed with a sort this
realises Python's sorted(set(l)). -/
def dedup : List PyStr → List PyStr
  | [] => []
  | a :: rest =>
    let d := dedup rest
    if a ∈ d then d else a :: d

/-- Python sorted(set(l)): deduplicate, then sort lexicographically. -/
def sortedSet (l : List PyStr) : List PyStr := (dedup l).insertionSort lexLe

/-! HTML extraction and rewriting (mirror.py lines 161-235). -/

/-- ASCII whitespace for str.strip() (the srcset parts and content
types the crawler strips are ASCII). -/
def isSpaceCh (c : Nat) : Bool := c = 32 ∨ c = 9 ∨ c = 10 ∨ c = 13 ∨ c = 11 ∨ c = 12

/-- Python s.strip() restricted to ASCII whitespace. -/
def pyStripWs (s : PyStr) : PyStr :=
  ((s.dropWhile isSpaceCh).reverse.dropWhile isSpaceCh).reverse

/-- Python s.rstrip(chars): strip any trailing characters of the set. -/
def rstripSet (cs : List Nat) (s : PyStr) : PyStr :=
  (s.reverse.dropWhile (· ∈ cs)).reverse

/-- Shallow model of one parsed HTML element: BeautifulSoup is an
external library, so the document carries the attribute data the
crawler's selectors read. -/
structure HtmlTag where
  name : PyStr
  href : Option PyStr
  src : Option PyStr
  rel : Option (List PyStr)
  srcset : Option PyStr
deriving DecidableEq, Repr

/-- A parsed document is its element list in document order. -/
abbrev Doc := List HtmlTag

/-- Candidate references collected by _extract_html_data in source
order: a[href]; script[src]; link[rel] with stylesheet/preload rel via
href; img src and the first URL token of each comma-separated srcset
entry on img/source.  Empty entries are skipped later by push. -/
def htmlRefCandidates (doc : Doc) : List PyStr :=
  (doc.filterMap fun t => if t.name = pstr "a" then t.href else none) ++
  (doc.filterMap fun t => if t.name = pstr "script" then t.src else none) ++
  (doc.filterMap fun t =>
    match t.rel with
    | some r =>
      if t.name = pstr "link" ∧
          (pyContains (joinWith 32 r) (pstr "stylesheet") ∨
           pyContains (joinWith 32 r) (pstr "preload")) then
        some (t.href.getD [])
      else none
    | none => none) ++
  (doc.flatMap fun t =>
    if (t.name = pstr "img" ∧ t.src ≠ none) ∨ (t.name = pstr "source" ∧ t.srcset ≠ none) then
      (match t.src with | some s => if s ≠ [] then [s] else [] | none => []) ++
      (match t.srcset with
       | some ss =>
         if ss ≠ [] then
           (splitAll 44 ss).map fun part => (pyStripWs part).takeWhile (· ≠ 32)
         else []
       | none => [])
    else [])

/-- Association-list model of the Python dict local_map; insertion
prepends, lookup takes the most recent binding. -/
def lookupLM (lm : List (PyStr × List PyStr)) (k : PyStr) : Option (List PyStr) :=
  (lm.find? (fun kv => kv.1 = k)).map (·.2)

/-- Python str(Path(...)) on a segment list (absolute paths carry a
leading empty segment). -/
def renderPath (segs : List PyStr) : PyStr := joinWith 47 segs

/-- Path.relative_to(root): drop the root segments.  On inputs where
root is not an ancestor Python raises ValueError; all call sites below
construct the target under the root. -/
def dropRoot (root target : List PyStr) : List PyStr :=
  if root.isPrefixOf target then target.drop root.length else target

/-- MirrorCrawler._relative_ref_for_page (mirror.py lines 231-235):
with no local_map entry for the page itself, the full target path
string is returned; otherwise the target relative to the host root
behind a single ".." step. -/
def relativeRefForPage (cr : Crawler) (lm : List (PyStr × List PyStr))
    (pageUrl : PyStr) (targetLocal : List PyStr) : PyStr :=
  match lookupLM lm pageUrl with
  | none => renderPath targetLocal
  | some _ => renderPath (pstr ".." :: dropRoot cr.hostRoot targetLocal)

/-- Rewrite of one attribute value (mirror.py lines 219-223): resolve
and canonicalise, and if the target has a local_map entry replace the
value with the page-relative reference. -/
def rewriteVal (cr : Crawler) (lm : List (PyStr × List PyStr)) (url v : PyStr) : PyStr :=
  let old := normalizeUrl (pyUrljoin url v)
  match lookupLM lm old with
  | some loc => relativeRefForPage cr lm url loc
  | none => v

/-- Rewrite pass over one element: the (tag, attribute) pairs rewritten
are a/href, script/src, link/href, img/src (mirror.py lines 212-218). -/
def rewriteTag (cr : Crawler) (lm : List (PyStr × List PyStr)) (url : PyStr)
    (t : HtmlTag) : HtmlTag :=
  if t.name = pstr "a" ∨ t.name = pstr "link" then
    { t with href := t.href.map (rewriteVal cr lm url) }
  else if t.name = pstr "script" ∨ t.name = pstr "img" then
    { t with src := t.src.map (rewriteVal cr lm url) }
  else t

/-- MirrorCrawler._extract_html_data (mirror.py lines 171-229) over the
document model: discovered links are resolved against the page URL,
canonicalised, scope-filtered, deduplicated and sorted; when link
rewriting is enabled the returned document has its reference
attributes rewritten.  The form/script metadata the function also
returns is not constrained by any claim and is not modelled. -/
def extractHtmlData (cr : Crawler) (localMap : List (PyStr × List PyStr)) (url : PyStr)
    (doc : Doc) : List PyStr × Doc :=
  let found := (htmlRefCandidates doc).filterMap fun link =>
    if link = [] then none
    else
      let absUrl := normalizeUrl (pyUrljoin url link)
      if inScope cr absUrl then some absUrl else none
  let newDoc := if cr.rewriteLinks then doc.map (rewriteTag cr localMap url) else doc
  (sortedSet found, newDoc)

/-! Fetching and per-URL processing (mirror.py lines 237-371). -/

/-- Abstraction of an httpx.Response as far as _process_one reads it:
status code, content-type header, body length, the parsed document of
the body (BeautifulSoup oracle) and the raw regex captures of the JS
scan (re-module oracle). -/
structure Response where
  statusCode : Nat
  contentTypeHeader : PyStr
  bodyLen : Nat
  doc : Doc
  jsImportsRaw : List PyStr
  jsSourceMapsRaw : List PyStr
  jsNetworkHintsRaw : List PyStr

/-- Result of MirrorCrawler._extract_js_sources (mirror.py lines 161-169). -/
structure JsSources where
  sourceMaps : List PyStr
  imports : List PyStr
  networkHints : List PyStr

/-- MirrorCrawler._extract_js_sources: strip and deduplicate-sort the
regex captures. -/
def extractJsSources (r : Response) : JsSources :=
  { sourceMaps := sortedSet (r.jsSourceMapsRaw.map fun m => rstripSet [42, 47] (pyStripWs m))
    imports := sortedSet r.jsImportsRaw
    networkHints := sortedSet r.jsNetworkHintsRaw }

/-- httpx Response.is_success: 2xx status. -/
def isSuccess (status : Nat) : Bool := 200 ≤ status ∧ status < 300

/-- Decimal rendering f"HTTP {status_code}". -/
def httpErrorStr (status : Nat) : PyStr :=
  pstr "HTTP " ++ (Nat.toDigits 10 status).map Char.toNat

/-- Transient statuses retried by _fetch_with_retry (mirror.py line 249). -/
def transientStatuses : List Nat := [429, 500, 502, 503, 504]

/-- MirrorCrawler._fetch_with_retry (mirror.py lines 245-253) over the
responses successive GET attempts would receive: the returned
response, the number of attempts made, and the backoff sleeps in
seconds between attempts (2 ** attempt).  The three-iteration loop for
i in range(3) is unrolled. -/
def fetchWithRetry (resps : Nat → Response) : Response × Nat × List Nat :=
  if (resps 0).statusCode ∉ transientStatuses then (resps 0, 1, [])
  else if (resps 1).statusCode ∉ transientStatuses then (resps 1, 2, [1])
  else (resps 2, 3, [1, 2])

/-- Outcome of the fetch as _process_one observes it: a transport-level
fault raises (DNS, TLS, reset, timeout -- caught as a generic
exception), otherwise a response is available. -/
inductive FetchOutcome where
  | failure (msg : PyStr)
  | ok (resp : Response)

/-- CrawlResult (mirror.py lines 32-41); the sources metadata map is
not constrained by any claim and is not modelled. -/
structure CrawlResult where
  url : PyStr
  statusCode : Option Nat
  contentType : Option PyStr
  localPath : Option PyStr
  kind : PyStr
  discoveredLinks : List PyStr
  error : Option PyStr
deriving DecidableEq, Repr

/-- Mutable crawler state touched by _process_one. -/
structure ProcState where
  localMap : List (PyStr × List PyStr)
  pageCount : Nat
  assetCount : Nat

/-- Content-type extraction (mirror.py line 317):
headers.get("content-type", "").split(";")[0].strip().lower(). -/
def contentTypeOf (resp : Response) : PyStr :=
  pyLower (pyStripWs (splitFirst 59 resp.contentTypeHeader).1)

/-- Body size ceiling, 10 MiB (mirror.py line 319). -/
def sizeCeiling : Nat := 10 * 1024 * 1024

/-- MirrorCrawler._process_one (mirror.py lines 313-371) as a pure
state transformer.  Disk writes are modelled as succeeding, and the
asyncio interleaving of a batch is linearised; the claims below do not
depend on either.  Note the ordering fixed by the source: the HTML
extraction (and hence link rewriting) runs before the page's own
local_map entry is inserted. -/
def processOne (cr : Crawler) (st : ProcState) (url kind : PyStr)
    (outcome : FetchOutcome) : CrawlResult × ProcState :=
  match outcome with
  | .failure msg =>
    ({ url := url, statusCode := none, contentType := none, localPath := none,
       kind := kind, discoveredLinks := [], error := some msg }, st)
  | .ok resp =>
    let contentType := contentTypeOf resp
    if resp.bodyLen > sizeCeiling then
      ({ url := url, statusCode := some resp.statusCode, contentType := some contentType,
         localPath := none, kind := kind, discoveredLinks := [],
         error := some (pstr "response too large") }, st)
    else
      let isHtml := pyContains contentType (pstr "text/html") ∨ looksLikePage url
      let effKind := if isHtml then pstr "page" else kind
      let localPath := urlToLocalPath cr url effKind (some contentType)
      let discovered : List PyStr :=
        if isHtml then (extractHtmlData cr st.localMap url resp.doc).1
        else if pyContains contentType (pstr "javascript") ∨
            pathSuffix (localPath.getLastD []) = pstr ".js" then
          let js := extractJsSources resp
          (js.imports ++ js.sourceMaps).filterMap fun hint =>
            let absHint := normalizeUrl (pyUrljoin url hint)
            if inScope cr absHint then some absHint else none
        else []
      let st2 : ProcState :=
        { localMap := (url, localPath) :: st.localMap,
          pageCount := if isHtml then st.pageCount + 1 else st.pageCount,
          assetCount := if isHtml then st.assetCount else st.assetCount + 1 }
      ({ url := url, statusCode := some resp.statusCode, contentType := some contentType,
         localPath := some (renderPath (dropRoot cr.hostRoot localPath)),
         kind := effKind,
         discoveredLinks := sortedSet discovered,
         error := if isSuccess resp.statusCode then none
                  else some (httpErrorStr resp.statusCode) }, st2)

/-! Crawl orchestration (mirror.py lines 255-305). -/

/-- A queue item (url, depth, kind). -/
structure QItem where
  url : PyStr
  depth : Nat
  kind : PyStr
deriving DecidableEq, Repr

/-- Orchestrator state over one run. -/
structure CrawlState where
  queue : List QItem
  seen : List PyStr
  proc : ProcState
  log : List CrawlResult
  errors : List CrawlResult

/-- Batch draining (mirror.py lines 266-274): pop from the queue while
it is nonempty and the batch is under the concurrency cap, skipping
items already seen or out of scope, and marking accepted items seen
immediately.  Returns (batch, remaining queue, new seen). -/
def drainBatch (cr : Crawler) : List QItem → List PyStr → List QItem →
    List QItem × List QItem × List PyStr
  | [], seen, batch => (batch, [], seen)
  | q :: rest, seen, batch =>
    if cr.concurrency ≤ batch.length then (batch, q :: rest, seen)
    else if q.url ∈ seen then drainBatch cr rest seen batch
    else if ¬ inScope cr q.url then drainBatch cr rest seen batch
    else drainBatch cr rest (seen ++ [q.url]) (batch ++ [q])

/-- Enqueueing of the discovered links of one processed item
(mirror.py lines 285-292): a link is enqueued only if depth+1 is
within max_depth and it is not yet seen; asset-classified links must
be in the include set. -/
def childItems (cr : Crawler) (seen : List PyStr) (depth : Nat)
    (links : List PyStr) : List QItem :=
  links.filterMap fun link =>
    if depth + 1 ≤ cr.maxDepth ∧ link ∉ seen then
      let lkind := if looksLikePage link then pstr "page" else pstr "asset"
      if lkind = pstr "asset" ∧
          classifyAsset none (pyUrlparse link []).path ∉ cr.includeAssets then none
      else some ⟨link, depth + 1, lkind⟩
    else none

/-- Processing of a drained batch in batch order (asyncio.gather is
linearised; results are consumed in batch order as in the source). -/
def processBatch (cr : Crawler) (env : PyStr → FetchOutcome) :
    ProcState → List QItem → List CrawlResult × ProcState
  | st, [] => ([], st)
  | st, q :: rest =>
    let pr := processOne cr st q.url q.kind (env q.url)
    let rec2 := processBatch cr env pr.2 rest
    (pr.1 :: rec2.1, rec2.2)

/-- Children enqueued for a whole batch, in result order. -/
def enqueueAll (cr : Crawler) (seen : List PyStr) :
    List (CrawlResult × QItem) → List QItem
  | [] => []
  | (r, q) :: rest => childItems cr seen q.depth r.discoveredLinks ++ enqueueAll cr seen rest

/-- The crawl loop (mirror.py lines 265-292), driven by fuel: each
fuel step is one iteration of the while loop (the loop's termination
is outside the claims verified here). -/
def crawlRun (cr : Crawler) (env : PyStr → FetchOutcome) : Nat → CrawlState → CrawlState
  | 0, s => s
  | fuel + 1, s =>
    if s.queue = [] ∨ cr.maxPages ≤ s.proc.pageCount then s
    else
      let d := drainBatch cr s.queue s.seen []
      if d.1 = [] then crawlRun cr env fuel { s with queue := d.2.1, seen := d.2.2 }
      else
        let pb := processBatch cr env s.proc d.1
        let newItems := enqueueAll cr d.2.2 (pb.1.zip d.1)
        crawlRun cr env fuel
          { queue := d.2.1 ++ newItems, seen := d.2.2, proc := pb.2,
            log := s.log ++ pb.1,
            errors := s.errors ++ pb.1.filter (fun r => r.error ≠ none) }

/-- Initial crawl state: the queue holds (base_url, 0, "page")
(mirror.py line 257). -/
def initState (cr : Crawler) : CrawlState :=
  { queue := [⟨cr.baseUrl, 0, pstr "page"⟩], seen := [],
    proc := { localMap := [], pageCount := 0, assetCount := 0 },
    log := [], errors := [] }

/-- Rule predicate of the classifier's js rule, as read by the amended
claim C5: a content-type substring or a path extension fires it. -/
def jsRuleFires (ct : Option PyStr) (p : PyStr) : Prop :=
  pyContains (pyLower (ct.getD [])) (pstr "javascript") = true ∨
  pyEndsWith (pyLower p) (pstr ".js") = true ∨
  pyEndsWith (pyLower p) (pstr ".mjs") = true ∨
  pyEndsWith (pyLower p) (pstr ".cjs") = true

/-- Rule predicate of the classifier's css rule. -/
def cssRuleFires (ct : Option PyStr) (p : PyStr) : Prop :=
  pyContains (pyLower (ct.getD [])) (pstr "css") = true ∨
  pyEndsWith (pyLower p) (pstr ".css") = true

/-- Rule predicate of the classifier's font rule. -/
def fontRuleFires (ct : Option PyStr) (p : PyStr) : Prop :=
  pyContains (pyLower (ct.getD [])) (pstr "font") = true ∨
  pyContains (pyLower (ct.getD [])) (pstr "woff") = true ∨
  pyContains (pyLower (ct.getD [])) (pstr "ttf") = true ∨
  pyEndsWith (pyLower p) (pstr ".woff") = true ∨
  pyEndsWith (pyLower p) (pstr ".woff2") = true ∨
  pyEndsWith (pyLower p) (pstr ".ttf") = true ∨
  pyEndsWith (pyLower p) (pstr ".otf") = true

/-- Rule predicate of the classifier's img rule. -/
def imgRuleFires (ct : Option PyStr) (p : PyStr) : Prop :=
  pyContains (pyLower (ct.getD [])) (pstr "image") = true ∨
  pyContains (pyLower (ct.getD [])) (pstr "svg") = true ∨
  pyEndsWith (pyLower p) (pstr ".png") = true ∨
  pyEndsWith (pyLower p) (pstr ".jpg") = true ∨
  pyEndsWith (pyLower p) (pstr ".jpeg") = true ∨
  pyEndsWith (pyLower p) (pstr ".gif") = true ∨
  pyEndsWith (pyLower p) (pstr ".webp") = true ∨
  pyEndsWith (pyLower p) (pstr ".svg") = true ∨
  pyEndsWith (pyLower p) (pstr ".ico") = true

/-! Concrete fixtures shared by the example-level theorems. -/

/-- A concrete crawler: seed http://example.com, output root /tmp/out,
same-origin scope, default asset include set, depth 3, concurrency 10,
rewriting on. -/
def exCrawler : Crawler :=
  mkCrawler (pstr "http://example.com") [[], pstr "tmp", pstr "out"] 200
    (pstr "same-origin") [pstr "js", pstr "css", pstr "img", pstr "font"] 3 10 true
    (fun _ => [])

/-- The empty per-crawl mutable state. -/
def exState : ProcState := { localMap := [], pageCount := 0, assetCount := 0 }

/-- A 503 response whose body exceeds the 10 MiB ceiling. -/
def exBig503 : Response :=
  { statusCode := 503, contentTypeHeader := pstr "text/html", bodyLen := sizeCeiling + 1,
    doc := [], jsImportsRaw := [], jsSourceMapsRaw := [], jsNetworkHintsRaw := [] }

/-- A 200 text/html response whose body exceeds the 10 MiB ceiling. -/
def exBigHtml : Response :=
  { statusCode := 200, contentTypeHeader := pstr "text/html; charset=utf-8",
    bodyLen := sizeCeiling + 1, doc := [],
    jsImportsRaw := [], jsSourceMapsRaw := [], jsNetworkHintsRaw := [] }

/-- A small 200 text/html response with an empty document. -/
def exHtmlOk : Response :=
  { statusCode := 200, contentTypeHeader := pstr "text/html", bodyLen := 100, doc := [],
    jsImportsRaw := [], jsSourceMapsRaw := [], jsNetworkHintsRaw := [] }

/-- Local-map fixture: the asset http://example.com/app.js has already
been saved below the host root. -/
def exC9Map : List (PyStr × List PyStr) :=
  [(pstr "http://example.com/app.js",
    exCrawler.hostRoot ++ [pstr "assets", pstr "js", pstr "app.js"])]

/-- Document fixture: a single script element referencing /app.js. -/
def exC9Doc : Doc :=
  [{ name := pstr "script", href := none, src := some (pstr "/app.js"),
     rel := none, srcset := none }]

/-- Document fixture for the end-to-end scenario: anchors to /a and to
https://other.com/b, and one script referencing /app.js. -/
def exC6Doc : Doc :=
  [{ name := pstr "a", href := some (pstr "/a"), src := none, rel := none, srcset := none },
   { name := pstr "a", href := some (pstr "https://other.com/b"), src := none,
     rel := none, srcset := none },
   { name := pstr "script", href := none, src := some (pstr "/app.js"),
     rel := none, srcset := none }]

/-! Supporting lemmas. -/

theorem pyLe_cons_iff {x y : Nat} {xs ys : PyStr} :
    pyLe (x :: xs) (y :: ys) = true ↔ x < y ∨ (x = y ∧ pyLe xs ys = true) := by
  simp only [pyLe]
  by_cases h1 : x < y
  · simp [h1]
  · by_cases h2 : y < x
    · simp [h1, h2]; omega
    · have hxy : x = y := by omega
      simp [h1, h2, hxy]

instance : IsTotal PyStr lexLe := by
  constructor
  intro a b
  induction a generalizing b with
  | nil => left; rfl
  | cons x xs ih =>
    cases b with
    | nil => right; rfl
    | cons y ys =>
      simp only [lexLe, pyLe_cons_iff]
      rcases Nat.lt_trichotomy x y with h | h | h
      · left; exact Or.inl h
      · rcases ih ys with h2 | h2
        · left; exact Or.inr ⟨h, h2⟩
        · right; exact Or.inr ⟨h.symm, h2⟩
      · right; exact Or.inl h

instance : IsTrans PyStr lexLe := by
  constructor
  intro a b c hab hbc
  induction a generalizing b c with
  | nil => rfl
  | cons x xs ih =>
    cases b with
    | nil => exact absurd hab (by simp [lexLe, pyLe])
    | cons y ys =>
      cases c with
      | nil => exact absurd hbc (by simp [lexLe, pyLe])
      | cons z zs =>
        simp only [lexLe, pyLe_cons_iff] at hab hbc ⊢
        rcases hab with h1 | ⟨h1, h1r⟩
        · rcases hbc with h2 | ⟨h2, _⟩
          · exact Or.inl (Nat.lt_trans h1 h2)
          · exact Or.inl (h2 ▸ h1)
        · rcases hbc with h2 | ⟨h2, h2r⟩
          · exact Or.inl (h1 ▸ h2)
          · exact Or.inr ⟨h1.trans h2, ih _ _ h1r h2r⟩

theorem singleton_isPrefixOf_dropWhile_eq (c : Nat) (l : List Nat) :
    [c].isPrefixOf (l.dropWhile (· = c)) = false := by
  induction l with
  | nil => rfl
  | cons a t ih =>
    by_cases h : a = c
    · simpa [List.dropWhile_cons, h] using ih
    · simp [List.dropWhile_cons, h, List.isPrefixOf, beq_iff_eq]
      omega

theorem pyRStrip_no_trailing (c : Nat) (s : PyStr) :
    pyEndsWith (pyRStrip c s) [c] = false := by
  unfold pyEndsWith pyRStrip
  simp only [List.isSuffixOf, List.reverse_reverse]
  simpa using singleton_isPrefixOf_dropWhile_eq c s.reverse

/-! Claim C5: asset-classification priority. -/

/-- Claim C5 as stated is false at content type "text/css" with path
"/x.js": the classifier returns js (the first rule's extension
alternative fires), where content-type-substring priority would give
css. -/
theorem c5_counterexample :
    classifyAsset (some (pstr "text/css")) (pstr "/x.js") = pstr "js" ∧
    classifyAsset (some (pstr "text/css")) (pstr "/x.js") ≠ pstr "css" := by
  constructor
  · decide
  · decide

/-- C5 amended: classification tries the kinds in the fixed source
order js, css, font, img, where each rule fires if the lowercased
content type contains one of its substrings OR the lowercased path
ends in one of its extensions (the two alternatives have equal
priority within a rule), and misc is returned when no rule fires; the
three concrete examples of the claim hold. -/
theorem c5_amended :
    (∀ ct p,
      (classifyAsset ct p = pstr "js" ↔ jsRuleFires ct p) ∧
      (classifyAsset ct p = pstr "css" ↔ ¬ jsRuleFires ct p ∧ cssRuleFires ct p) ∧
      (classifyAsset ct p = pstr "font" ↔
        ¬ jsRuleFires ct p ∧ ¬ cssRuleFires ct p ∧ fontRuleFires ct p) ∧
      (classifyAsset ct p = pstr "img" ↔
        ¬ jsRuleFires ct p ∧ ¬ cssRuleFires ct p ∧ ¬ fontRuleFires ct p ∧
          imgRuleFires ct p) ∧
      (classifyAsset ct p = pstr "misc" ↔
        ¬ jsRuleFires ct p ∧ ¬ cssRuleFires ct p ∧ ¬ fontRuleFires ct p ∧
          ¬ imgRuleFires ct p)) ∧
    classifyAsset (some (pstr "font/woff2")) (pstr "/x.woff2") = pstr "font" ∧
    classifyAsset (some (pstr "application/javascript")) (pstr "/x") = pstr "js" ∧
    classifyAsset (some (pstr "")) (pstr "/x.unknown") = pstr "misc" := by
  refine ⟨fun ct p => ?_, by rfl, by rfl, by rfl⟩
  simp only [classifyAsset, jsRuleFires, cssRuleFires, fontRuleFires, imgRuleFires]
  split_ifs with h1 h2 h3 h4
  · exact ⟨iff_of_true rfl h1,
      iff_of_false (fun h => absurd h (by decide)) (fun h => h.1 h1),
      iff_of_false (fun h => absurd h (by decide)) (fun h => h.1 h1),
      iff_of_false (fun h => absurd h (by decide)) (fun h => h.1 h1),
      iff_of_false (fun h => absurd h (by decide)) (fun h => h.1 h1)⟩
  · exact ⟨iff_of_false (fun h => absurd h (by decide)) h1,
      iff_of_true rfl ⟨h1, h2⟩,
      iff_of_false (fun h => absurd h (by decide)) (fun h => h.2.1 h2),
      iff_of_false (fun h => absurd h (by decide)) (fun h => h.2.1 h2),
      iff_of_false (fun h => absurd h (by decide)) (fun h => h.2.1 h2)⟩
  · exact ⟨iff_of_false (fun h => absurd h (by decide)) h1,
      iff_of_false (fun h => absurd h (by decide)) (fun h => h2 h.2),
      iff_of_true rfl ⟨h1, h2, h3⟩,
      iff_of_false (fun h => absurd h (by decide)) (fun h => h.2.2.1 h3),
      iff_of_false (fun h => absurd h (by decide)) (fun h => h.2.2.1 h3)⟩
  · exact ⟨iff_of_false (fun h => absurd h (by decide)) h1,
      iff_of_false (fun h => absurd h (by decide)) (fun h => h2 h.2),
      iff_of_false (fun h => absurd h (by decide)) (fun h => h3 h.2.2),
      iff_of_true rfl ⟨h1, h2, h3, h4⟩,
      iff_of_false (fun h => absurd h (by decide)) (fun h => h.2.2.2 h4)⟩
  · exact ⟨iff_of_false (fun h => absurd h (by decide)) h1,
      iff_of_false (fun h => absurd h (by decide)) (fun h => h2 h.2),
      iff_of_false (fun h => absurd h (by decide)) (fun h => h3 h.2.2),
      iff_of_false (fun h => absurd h (by decide)) (fun h => h4 h.2.2.2),
      iff_of_true rfl ⟨h1, h2, h3, h4⟩⟩

/-! Claim C4: trailing-slash stripping. -/

/-- Claim C4 as stated ("strips exactly one trailing slash") is false
at "https://a.com/foo//": the parsed path is "/foo//", removing a
single trailing slash would leave "/foo/" (canonical form
"https://a.com/foo/"), but the code's str.rstrip removes both slashes
and produces "https://a.com/foo". -/
theorem c4_counterexample :
    (pyUrlparse (pstr "https://a.com/foo//") []).path = pstr "/foo//" ∧
    normalizeUrl (pstr "https://a.com/foo//") = pstr "https://a.com/foo" ∧
    normalizeUrl (pstr "https://a.com/foo//") ≠ pstr "https://a.com/foo/" ∧
    (pstr "/foo//").dropLast = pstr "/foo/" := by
  refine ⟨by decide, by decide, by decide, by decide⟩

/-- C4 amended: the canonicaliser strips ALL trailing slashes from a
non-root path (str.rstrip), never leaving a trailing slash behind; a
path without a trailing slash is unchanged; the claim's concrete
consequences hold: canon("https://a.com/foo/") = canon("https://a.com/foo")
and the root path "/" is preserved. -/
theorem c4_amended :
    (∀ p, normalizePath p = pstr "/" ∨
      pyEndsWith (normalizePath p) (pstr "/") = false) ∧
    (∀ p, p ≠ [] → pyEndsWith p (pstr "/") = false → normalizePath p = p) ∧
    normalizeUrl (pstr "https://a.com/foo/") = normalizeUrl (pstr "https://a.com/foo") ∧
    normalizeUrl (pstr "https://a.com/") = pstr "https://a.com/" := by
  have hslash : pstr "/" = [47] := by decide
  refine ⟨fun p => ?_, fun p hne hend => ?_, by decide, by decide⟩
  · unfold normalizePath
    by_cases h : (if p = [] then pstr "/" else p) ≠ pstr "/" ∧
        pyEndsWith (if p = [] then pstr "/" else p) (pstr "/") = true
    · right
      rw [if_pos h, hslash]
      exact pyRStrip_no_trailing 47 _
    · rw [if_neg h]
      rcases Decidable.not_and_iff_or_not.mp h with h2 | h2
      · left; exact Decidable.not_not.mp h2
      · right; exact Bool.not_eq_true _ ▸ Bool.of_not_eq_true h2
  · unfold normalizePath
    rw [if_neg hne]
    rw [if_neg (by simp [hend])]

/-- Witness for the hypotheses of c4_amended: a concrete non-empty
path with no trailing slash is left unchanged. -/
theorem c4_witness : normalizePath (pstr "/a/b") = pstr "/a/b" :=
  c4_amended.2.1 (pstr "/a/b") (by decide) (by decide)

/-! Claim C1: presence of localPath and error in a CrawlResult. -/

/-- C1: for every processed URL, localPath is present iff the fetch
produced a response (no transport fault) and the body was within the
size ceiling so it was written, and error is present iff the fetch
failed at transport level, the body exceeded the ceiling, or the
response status was non-success. -/
theorem c1_result_fields (cr : Crawler) (st : ProcState) (url kind : PyStr)
    (outcome : FetchOutcome) :
    ((processOne cr st url kind outcome).1.localPath ≠ none ↔
      ∃ resp, outcome = .ok resp ∧ resp.bodyLen ≤ sizeCeiling) ∧
    ((processOne cr st url kind outcome).1.error ≠ none ↔
      (∃ msg, outcome = .failure msg) ∨
        ∃ resp, outcome = .ok resp ∧
          (sizeCeiling < resp.bodyLen ∨ isSuccess resp.statusCode = false)) := by
  cases outcome with
  | failure msg =>
    simp only [processOne]
    exact ⟨by simp, by simp⟩
  | ok resp =>
    simp only [processOne]
    by_cases hb : resp.bodyLen > sizeCeiling
    · rw [if_pos hb]
      constructor
      · simp only [ne_eq, not_true_eq_false, false_iff, not_exists, not_and,
          FetchOutcome.ok.injEq]
        intro r hr
        subst hr
        omega
      · simp only [ne_eq, reduceCtorEq, not_false_eq_true, true_iff]
        exact Or.inr ⟨resp, rfl, Or.inl hb⟩
    · rw [if_neg hb]
      constructor
      · simp only [ne_eq, reduceCtorEq, not_false_eq_true, true_iff]
        exact ⟨resp, rfl, by omega⟩
      · by_cases hs : isSuccess resp.statusCode
        · rw [if_pos hs]
          simp only [ne_eq, not_true_eq_false, false_iff, not_or, not_exists, not_and,
            FetchOutcome.ok.injEq, reduceCtorEq]
          constructor
          · intro msg
            simp
          · intro r hr
            subst hr
            simp [hs]
            omega
        · rw [if_neg hs]
          simp only [ne_eq, reduceCtorEq, not_false_eq_true, true_iff]
          exact Or.inr ⟨resp, rfl, Or.inr (by simpa using hs)⟩

/-! Claim C2: retry policy. -/

/-- Claim C2's final clause is false when the exhausted-retry response
carries an oversized body: every attempt returns 503, the retry
returns the third 503 response, the final status is non-success, yet
the record's error is "response too large" rather than "HTTP 503". -/
theorem c2_counterexample :
    (fetchWithRetry fun _ => exBig503) = (exBig503, 3, [1, 2]) ∧
    isSuccess exBig503.statusCode = false ∧
    (processOne exCrawler exState (pstr "http://example.com/") (pstr "page")
        (.ok exBig503)).1.error = some (pstr "response too large") ∧
    some (pstr "response too large") ≠ some (httpErrorStr 503) := by
  exact ⟨by rfl, by rfl, by rfl, by decide⟩

/-- C2 amended: the fetch makes at most 3 GET attempts; a response
with a non-transient status is returned immediately with no further
attempts and no sleeps; on transient statuses it retries, sleeping
2^attempt seconds (1s, then 2s) between attempts; after exhausting
retries the third response is returned as a normal result; and
provided the body is within the size ceiling (the oversize rule of C1
takes precedence otherwise) the record's error is "HTTP <code>"
exactly when the returned status is non-success. -/
theorem c2_amended (resps : Nat → Response) (cr : Crawler) (st : ProcState)
    (url kind : PyStr) :
    (fetchWithRetry resps).2.1 ≤ 3 ∧
    ((resps 0).statusCode ∉ transientStatuses →
      fetchWithRetry resps = (resps 0, 1, [])) ∧
    ((resps 0).statusCode ∈ transientStatuses →
      (resps 1).statusCode ∉ transientStatuses →
      fetchWithRetry resps = (resps 1, 2, [1])) ∧
    ((resps 0).statusCode ∈ transientStatuses →
      (resps 1).statusCode ∈ transientStatuses →
      fetchWithRetry resps = (resps 2, 3, [1, 2])) ∧
    (fetchWithRetry resps).2.2 =
      (List.range ((fetchWithRetry resps).2.1 - 1)).map (2 ^ ·) ∧
    ((fetchWithRetry resps).1.bodyLen ≤ sizeCeiling →
      ((processOne cr st url kind (.ok (fetchWithRetry resps).1)).1.error =
          some (httpErrorStr (fetchWithRetry resps).1.statusCode) ↔
        isSuccess (fetchWithRetry resps).1.statusCode = false)) := by
  have herr : ∀ resp : Response, resp.bodyLen ≤ sizeCeiling →
      (processOne cr st url kind (.ok resp)).1.error =
        if isSuccess resp.statusCode then none
        else some (httpErrorStr resp.statusCode) := by
    intro resp hsize
    simp only [processOne]
    rw [if_neg (by omega)]
  have hiff : ∀ resp : Response, resp.bodyLen ≤ sizeCeiling →
      ((processOne cr st url kind (.ok resp)).1.error =
          some (httpErrorStr resp.statusCode) ↔
        isSuccess resp.statusCode = false) := by
    intro resp hsize
    rw [herr resp hsize]
    by_cases hs : isSuccess resp.statusCode
    · simp [hs]
    · simp [hs]
  unfold fetchWithRetry
  by_cases h0 : (resps 0).statusCode ∈ transientStatuses
  · by_cases h1 : (resps 1).statusCode ∈ transientStatuses
    · rw [if_neg (by simpa using h0), if_neg (by simpa using h1)]
      exact ⟨by simp, fun h => absurd h0 h, fun _ h => absurd h1 h, fun _ _ => rfl,
        by rfl, fun hsize => hiff _ hsize⟩
    · rw [if_neg (by simpa using h0), if_pos h1]
      exact ⟨by simp, fun h => absurd h0 h, fun _ _ => rfl, fun _ h => absurd h h1,
        by rfl, fun hsize => hiff _ hsize⟩
  · rw [if_pos h0]
    exact ⟨by simp, fun _ => rfl, fun h => absurd h h0, fun h => absurd h h0,
      by rfl, fun hsize => hiff _ hsize⟩

/-- Witness for the hypotheses of c2_amended: a server that returns
503 twice and then 200 yields the third response after 3 attempts with
sleeps [1, 2], and a success record with no error. -/
theorem c2_witness :
    fetchWithRetry (fun i => if i ≤ 1 then exBig503 else exHtmlOk) =
      (exHtmlOk, 3, [1, 2]) ∧
    ((processOne exCrawler exState (pstr "http://example.com/") (pstr "page")
        (.ok (fetchWithRetry (fun i => if i ≤ 1 then exBig503 else exHtmlOk)).1)).1.error =
        some (httpErrorStr
          (fetchWithRetry (fun i => if i ≤ 1 then exBig503 else exHtmlOk)).1.statusCode) ↔
      isSuccess
        (fetchWithRetry (fun i => if i ≤ 1 then exBig503 else exHtmlOk)).1.statusCode =
          false) := by
  constructor
  · have h := (c2_amended (fun i => if i ≤ 1 then exBig503 else exHtmlOk)
      exCrawler exState (pstr "http://example.com/") (pstr "page")).2.2.2.1
      (by decide) (by decide)
    simpa using h
  · exact (c2_amended (fun i => if i ≤ 1 then exBig503 else exHtmlOk)
      exCrawler exState (pstr "http://example.com/") (pstr "page")).2.2.2.2.2
      (by decide)

/-! Claim C10: HTML-or-page-like items are processed as pages. -/

/-- Claim C10 as stated is false for an oversized response: the content
type contains text/html, yet the item queued as asset keeps kind
"asset", nothing is saved, and the page counter does not move. -/
theorem c10_counterexample :
    pyContains (contentTypeOf exBigHtml) (pstr "text/html") = true ∧
    (processOne exCrawler exState (pstr "http://example.com/x.bin") (pstr "asset")
        (.ok exBigHtml)).1.kind = pstr "asset" ∧
    (processOne exCrawler exState (pstr "http://example.com/x.bin") (pstr "asset")
        (.ok exBigHtml)).1.localPath = none ∧
    (processOne exCrawler exState (pstr "http://example.com/x.bin") (pstr "asset")
        (.ok exBigHtml)).2.pageCount = exState.pageCount := by
  exact ⟨by rfl, by rfl, by rfl, by rfl⟩

/-- C10 amended: for every item whose fetch produced a response with a
body within the size ceiling, if the content type contains text/html
or the URL path looks page-like, the item is processed as a page
regardless of its queued kind: the result kind is "page", the body is
saved under the pages/ tree, and the page counter is incremented (so
an item enqueued as an asset can consume the maxPages budget). -/
theorem c10_amended (cr : Crawler) (st : ProcState) (url kind : PyStr) (resp : Response)
    (hsize : resp.bodyLen ≤ sizeCeiling)
    (hhtml : pyContains (contentTypeOf resp) (pstr "text/html") = true ∨
      looksLikePage url = true) :
    (processOne cr st url kind (.ok resp)).1.kind = pstr "page" ∧
    (∃ rest, (processOne cr st url kind (.ok resp)).1.localPath =
      some (renderPath (dropRoot cr.hostRoot (cr.hostRoot ++ pstr "pages" :: rest)))) ∧
    (processOne cr st url kind (.ok resp)).2.pageCount = st.pageCount + 1 := by
  simp only [processOne]
  rw [if_neg (by omega)]
  refine ⟨by simp [hhtml], ?_, by simp [hhtml]⟩
  simp only [if_pos hhtml, urlToLocalPath, if_pos rfl]
  exact ⟨_, rfl⟩

/-- Witness for the hypotheses of c10_amended: a 200 text/html response
on an item queued as asset is processed as a page. -/
theorem c10_witness :
    (processOne exCrawler exState (pstr "http://example.com/x.bin") (pstr "asset")
        (.ok exHtmlOk)).1.kind = pstr "page" ∧
    (∃ rest, (processOne exCrawler exState (pstr "http://example.com/x.bin") (pstr "asset")
        (.ok exHtmlOk)).1.localPath =
      some (renderPath (dropRoot exCrawler.hostRoot
        (exCrawler.hostRoot ++ pstr "pages" :: rest)))) ∧
    (processOne exCrawler exState (pstr "http://example.com/x.bin") (pstr "asset")
        (.ok exHtmlOk)).2.pageCount = exState.pageCount + 1 :=
  c10_amended exCrawler exState (pstr "http://example.com/x.bin") (pstr "asset")
    exHtmlOk (by decide) (Or.inl (by rfl))

/-! Claim C9: link rewriting never produces the parent-relative path. -/

/-- C9 (code_bug): _extract_html_data runs before _process_one inserts
the page's own local_map entry, so _relative_ref_for_page always takes
its fallback branch: the attribute is replaced by the target's full
local path string, not by the claim's "../<path-under-root>" form.
Shown in general for any page absent from local_map, and concretely on
a page referencing an already-saved asset where the rewritten value is
the absolute path /tmp/out/mirror/example.com/assets/js/app.js. -/
theorem c9_rewrite_full_path :
    (∀ cr lm pageUrl target, lookupLM lm pageUrl = none →
      relativeRefForPage cr lm pageUrl target = renderPath target) ∧
    lookupLM exC9Map (pstr "http://example.com/") = none ∧
    (extractHtmlData exCrawler exC9Map (pstr "http://example.com/") exC9Doc).2 =
      [{ name := pstr "script", href := none,
         src := some (pstr "/tmp/out/mirror/example.com/assets/js/app.js"),
         rel := none, srcset := none }] ∧
    pstr "/tmp/out/mirror/example.com/assets/js/app.js" ≠ pstr "../assets/js/app.js" := by
  refine ⟨fun cr lm pageUrl target h => ?_, by rfl, by rfl, by decide⟩
  unfold relativeRefForPage
  rw [h]

/-! Claim C6: discovered-link extraction. -/

theorem dedup_mem (a : PyStr) : ∀ l : List PyStr, a ∈ dedup l ↔ a ∈ l
  | [] => Iff.rfl
  | b :: rest => by
    simp only [dedup]
    by_cases h : b ∈ dedup rest
    · rw [if_pos h]
      constructor
      · intro h2
        exact List.mem_cons_of_mem _ ((dedup_mem a rest).mp h2)
      · intro h2
        rcases List.mem_cons.mp h2 with rfl | h3
        · exact h
        · exact (dedup_mem a rest).mpr h3
    · rw [if_neg h]
      simp only [List.mem_cons, dedup_mem a rest]

theorem dedup_nodup : ∀ l : List PyStr, (dedup l).Nodup
  | [] => List.nodup_nil
  | b :: rest => by
    simp only [dedup]
    by_cases h : b ∈ dedup rest
    · rw [if_pos h]
      exact dedup_nodup rest
    · rw [if_neg h]
      exact List.nodup_cons.mpr ⟨h, dedup_nodup rest⟩

theorem sortedSet_sorted (l : List PyStr) : (sortedSet l).Sorted lexLe :=
  List.sorted_insertionSort lexLe (dedup l)

theorem sortedSet_nodup (l : List PyStr) : (sortedSet l).Nodup :=
  ((List.perm_insertionSort lexLe (dedup l)).nodup_iff).mpr (dedup_nodup l)

theorem sortedSet_mem (a : PyStr) (l : List PyStr) : a ∈ sortedSet l ↔ a ∈ l :=
  ((List.perm_insertionSort lexLe (dedup l)).mem_iff).trans (dedup_mem a l)

/-- C6: the discovered-link list of HTML extraction is sorted and
deduplicated and contains only in-scope canonicalised resolutions of
the document's collected references; in the end-to-end scenario (seed
http://example.com, whose canonical page URL is http://example.com/,
with anchors to /a and https://other.com/b and a script /app.js,
same-origin scope) the discovered links are exactly
["http://example.com/a", "http://example.com/app.js"] and
"https://other.com/b" is absent. -/
theorem c6_extraction :
    (∀ cr lm url doc,
      (extractHtmlData cr lm url doc).1.Sorted lexLe ∧
      (extractHtmlData cr lm url doc).1.Nodup ∧
      ∀ l ∈ (extractHtmlData cr lm url doc).1,
        inScope cr l = true ∧
        ∃ ref ∈ htmlRefCandidates doc,
          ref ≠ [] ∧ l = normalizeUrl (pyUrljoin url ref)) ∧
    exCrawler.baseUrl = pstr "http://example.com/" ∧
    (extractHtmlData exCrawler [] (pstr "http://example.com/") exC6Doc).1 =
      [pstr "http://example.com/a", pstr "http://example.com/app.js"] ∧
    pstr "https://other.com/b" ∉
      (extractHtmlData exCrawler [] (pstr "http://example.com/") exC6Doc).1 := by
  refine ⟨fun cr lm url doc => ?_, by rfl, by rfl, by decide⟩
  simp only [extractHtmlData]
  refine ⟨sortedSet_sorted _, sortedSet_nodup _, fun l hl => ?_⟩
  have hf := (sortedSet_mem _ _).mp hl
  rcases List.mem_filterMap.mp hf with ⟨ref, href, heq⟩
  revert heq
  generalize habs : normalizeUrl (pyUrljoin url ref) = abs
  intro heq
  by_cases h1 : ref = []
  · rw [if_pos h1] at heq
    cases heq
  · rw [if_neg h1] at heq
    by_cases h2 : inScope cr abs = true
    · rw [if_pos h2] at heq
      cases heq
      exact ⟨h2, ref, href, h1, habs.symm⟩
    · rw [if_neg h2] at heq
      cases heq

/-! Claims C7 and C8: orchestration invariants. -/

theorem processOne_url (cr : Crawler) (st : ProcState) (url kind : PyStr)
    (outcome : FetchOutcome) : (processOne cr st url kind outcome).1.url = url := by
  cases outcome with
  | failure msg => rfl
  | ok resp =>
    simp only [processOne]
    by_cases hb : resp.bodyLen > sizeCeiling
    · rw [if_pos hb]
    · rw [if_neg hb]

theorem processBatch_urls (cr : Crawler) (env : PyStr → FetchOutcome) :
    ∀ (st : ProcState) (batch : List QItem),
      (processBatch cr env st batch).1.map (·.url) = batch.map (·.url)
  | _, [] => rfl
  | st, q :: rest => by
    simp only [processBatch, List.map_cons]
    rw [processOne_url, processBatch_urls cr env _ rest]

theorem drainBatch_spec (cr : Crawler) :
    ∀ (queue : List QItem) (seen : List PyStr) (batch : List QItem),
      ∃ added : List QItem,
        (drainBatch cr queue seen batch).1 = batch ++ added ∧
        (drainBatch cr queue seen batch).2.2 = seen ++ added.map (·.url) ∧
        (added.map (·.url)).Nodup ∧
        ∀ u ∈ added.map (·.url), u ∉ seen
  | [], seen, batch => ⟨[], by simp [drainBatch], by simp [drainBatch], by simp, by simp⟩
  | q :: rest, seen, batch => by
    simp only [drainBatch]
    by_cases hc : cr.concurrency ≤ batch.length
    · rw [if_pos hc]
      exact ⟨[], by simp, by simp, by simp, by simp⟩
    · rw [if_neg hc]
      by_cases hs : q.url ∈ seen
      · rw [if_pos hs]
        exact drainBatch_spec cr rest seen batch
      · rw [if_neg hs]
        by_cases hin : inScope cr q.url = true
        · rw [if_neg (by simp [hin])]
          rcases drainBatch_spec cr rest (seen ++ [q.url]) (batch ++ [q]) with
            ⟨added, h1, h2, h3, h4⟩
          refine ⟨q :: added, ?_, ?_, ?_, ?_⟩
          · rw [h1]; simp
          · rw [h2]; simp
          · refine List.nodup_cons.mpr ⟨fun hmem => ?_, h3⟩
            exact h4 _ hmem (by simp)
          · intro u hu
            rcases List.mem_cons.mp hu with rfl | hu2
            · exact hs
            · intro huseen
              exact h4 u hu2 (by simp [huseen])
        · rw [if_pos (by simp [hin])]
          exact drainBatch_spec cr rest seen batch

theorem crawlRun_nil_queue (cr : Crawler) (env : PyStr → FetchOutcome) :
    ∀ (fuel : Nat) (s : CrawlState), s.queue = [] → crawlRun cr env fuel s = s
  | 0, _, _ => rfl
  | fuel + 1, s, h => by
    simp only [crawlRun]
    rw [if_pos (Or.inl h)]

theorem crawlRun_seen_mono (cr : Crawler) (env : PyStr → FetchOutcome) :
    ∀ (fuel : Nat) (s : CrawlState), ∀ u ∈ s.seen, u ∈ (crawlRun cr env fuel s).seen
  | 0, _, _, hu => hu
  | fuel + 1, s, u, hu => by
    simp only [crawlRun]
    by_cases hstop : s.queue = [] ∨ cr.maxPages ≤ s.proc.pageCount
    · rw [if_pos hstop]
      exact hu
    · rw [if_neg hstop]
      rcases drainBatch_spec cr s.queue s.seen [] with ⟨added, _, h2, _, _⟩
      have hu2 : u ∈ (drainBatch cr s.queue s.seen []).2.2 := by
        rw [h2]
        exact List.mem_append_left _ hu
      by_cases hb : (drainBatch cr s.queue s.seen []).1 = []
      · rw [if_pos hb]
        exact crawlRun_seen_mono cr env fuel _ u hu2
      · rw [if_neg hb]
        exact crawlRun_seen_mono cr env fuel _ u hu2

theorem crawlRun_log_invariant (cr : Crawler) (env : PyStr → FetchOutcome) :
    ∀ (fuel : Nat) (s : CrawlState),
      (s.log.map (·.url)).Nodup → (∀ u ∈ s.log.map (·.url), u ∈ s.seen) →
      ((crawlRun cr env fuel s).log.map (·.url)).Nodup ∧
        ∀ u ∈ (crawlRun cr env fuel s).log.map (·.url), u ∈ (crawlRun cr env fuel s).seen
  | 0, _, hnd, hsub => ⟨hnd, hsub⟩
  | fuel + 1, s, hnd, hsub => by
    simp only [crawlRun]
    by_cases hstop : s.queue = [] ∨ cr.maxPages ≤ s.proc.pageCount
    · rw [if_pos hstop]
      exact ⟨hnd, hsub⟩
    · rw [if_neg hstop]
      rcases drainBatch_spec cr s.queue s.seen [] with ⟨added, h1, h2, h3, h4⟩
      simp only [List.nil_append] at h1
      by_cases hb : (drainBatch cr s.queue s.seen []).1 = []
      · rw [if_pos hb]
        refine crawlRun_log_invariant cr env fuel _ hnd fun u hu => ?_
        rw [h2]
        exact List.mem_append_left _ (hsub u hu)
      · rw [if_neg hb]
        refine crawlRun_log_invariant cr env fuel _ ?_ ?_
        · simp only [List.map_append, processBatch_urls, h1]
          rw [List.nodup_append]
          refine ⟨hnd, h3, fun u hu hu2 => ?_⟩
          exact h4 u hu2 (hsub u hu)
        · intro u hu
          simp only [List.map_append, processBatch_urls, h1] at hu
          rcases List.mem_append.mp hu with hu2 | hu2
          · rw [h2]
            exact List.mem_append_left _ (hsub u hu2)
          · rw [h2]
            exact List.mem_append_right _ hu2

/-- C8: the seen set grows monotonically over the crawl and never
shrinks; every accepted batch member's URL is in the seen set produced
by the drain, before any fetch of the batch is dispatched; and no URL
appears twice in the crawl log (each URL is fetched at most once). -/
theorem c8_seen_once :
    (∀ (cr : Crawler) (env : PyStr → FetchOutcome) (fuel : Nat) (s : CrawlState),
      ∀ u ∈ s.seen, u ∈ (crawlRun cr env fuel s).seen) ∧
    (∀ (cr : Crawler) (queue : List QItem) (seen : List PyStr),
      ∀ i ∈ (drainBatch cr queue seen []).1, i.url ∈ (drainBatch cr queue seen []).2.2) ∧
    (∀ (cr : Crawler) (env : PyStr → FetchOutcome) (fuel : Nat),
      ((crawlRun cr env fuel (initState cr)).log.map (·.url)).Nodup) := by
  refine ⟨crawlRun_seen_mono, fun cr queue seen i hi => ?_, fun cr env fuel => ?_⟩
  · rcases drainBatch_spec cr queue seen [] with ⟨added, h1, h2, _, _⟩
    simp only [List.nil_append] at h1
    rw [h1] at hi
    rw [h2]
    exact List.mem_append_right _ (List.mem_map_of_mem _ hi)
  · exact (crawlRun_log_invariant cr env fuel (initState cr) (by simp [initState])
      (by simp [initState])).1

theorem childItems_nil_of_maxDepth_zero (cr : Crawler) (seen : List PyStr)
    (depth : Nat) (links : List PyStr) (h : cr.maxDepth = 0) :
    childItems cr seen depth links = [] := by
  unfold childItems
  rw [List.filterMap_eq_nil_iff]
  intro link _
  rw [if_neg]
  intro hcond
  omega

theorem drainBatch_singleton (cr : Crawler) (q : QItem)
    (hc : 1 ≤ cr.concurrency) (hin : inScope cr q.url = true) :
    drainBatch cr [q] [] [] = ([q], [], [q.url]) := by
  simp only [drainBatch]
  rw [if_neg (by simp; omega), if_neg (by simp), if_neg (by simp [hin])]
  simp [drainBatch]

/-- C7: a discovered link is enqueued only when the discovering item's
depth plus one is within maxDepth and the link is not yet seen (and
the enqueued item carries depth+1); consequently with maxDepth = 0 (and
a sane configuration: positive page budget and concurrency, in-scope
seed) only the seed is fetched and none of its discovered links are
enqueued. -/
theorem c7_depth_gate :
    (∀ (cr : Crawler) (seen : List PyStr) (depth : Nat) (links : List PyStr)
        (item : QItem), item ∈ childItems cr seen depth links →
      item.depth = depth + 1 ∧ depth + 1 ≤ cr.maxDepth ∧ item.url ∉ seen) ∧
    (∀ (cr : Crawler) (env : PyStr → FetchOutcome) (fuel : Nat),
      cr.maxDepth = 0 → 1 ≤ cr.maxPages → 1 ≤ cr.concurrency →
      inScope cr cr.baseUrl = true → 1 ≤ fuel →
      (crawlRun cr env fuel (initState cr)).log.map (·.url) = [cr.baseUrl]) := by
  constructor
  · intro cr seen depth links item hitem
    rcases List.mem_filterMap.mp hitem with ⟨link, _, heq⟩
    by_cases hcond : depth + 1 ≤ cr.maxDepth ∧ link ∉ seen
    · rw [if_pos hcond] at heq
      by_cases hdrop : (if looksLikePage link then pstr "page" else pstr "asset") =
          pstr "asset" ∧
          classifyAsset none (pyUrlparse link []).path ∉ cr.includeAssets
      · rw [if_pos hdrop] at heq
        cases heq
      · rw [if_neg hdrop] at heq
        cases heq
        exact ⟨rfl, hcond.1, hcond.2⟩
    · rw [if_neg hcond] at heq
      cases heq
  · intro cr env fuel hdepth hpages hconc hseed hfuel
    rcases fuel with _ | fuel
    · omega
    simp only [crawlRun, initState]
    rw [if_neg (by simp; omega)]
    rw [drainBatch_singleton cr ⟨cr.baseUrl, 0, pstr "page"⟩ hconc hseed]
    rw [if_neg (by simp)]
    simp only [processBatch, List.zip_cons_cons, List.zip_nil_right, enqueueAll,
      childItems_nil_of_maxDepth_zero cr _ _ _ hdepth, List.nil_append, List.append_nil]
    rw [crawlRun_nil_queue cr env fuel _ rfl]
    simp [processOne_url]

/-! Claim C3: canonicalisation idempotence.  The counterexample is
direct; the amended theorem needs the UTF-8 / percent-quoting
roundtrip and the structure of canonical outputs, developed below. -/

theorem utf8Cont_eq_true {b : Nat} (h1 : 0x80 ≤ b) (h2 : b ≤ 0xBF) :
    utf8Cont b = true := by
  simp only [utf8Cont]
  simp
  omega

theorem utf8Dec_enc_append (c : Nat) (h : validScalar c) (bs : List Nat) :
    utf8Dec (utf8Enc c ++ bs) = c :: utf8Dec bs := by
  unfold validScalar at h
  unfold utf8Dec utf8Enc
  by_cases h1 : c < 0x80
  · rw [if_pos h1]
    simp only [List.cons_append, List.nil_append, utf8DecGo]
    rw [if_pos h1]
    simp
  · rw [if_neg h1]
    by_cases h2 : c < 0x800
    · rw [if_pos h2]
      simp only [List.cons_append, List.nil_append, utf8DecGo]
      rw [if_neg (by omega), if_pos (by omega),
        if_pos (utf8Cont_eq_true (by omega) (by omega))]
      rw [if_pos trivial]
      simp only [List.nil_append, List.cons.injEq]
      exact ⟨by omega, rfl⟩
    · rw [if_neg h2]
      by_cases h3 : c < 0x10000
      · rw [if_pos h3]
        simp only [List.cons_append, List.nil_append, utf8DecGo]
        rw [if_neg (by omega), if_neg (by omega), if_pos (by omega)]
        rw [if_pos (show utf8Cont3 (0xE0 + c / 4096) (0x80 + c / 64 % 64) = true by
          simp only [utf8Cont3, utf8Cont]
          split_ifs with hb1 hb2 <;> (simp; omega))]
        rw [if_neg (by omega)]
        rw [if_pos (utf8Cont_eq_true (by omega) (by omega))]
        rw [if_pos trivial]
        simp only [List.nil_append, List.cons.injEq]
        exact ⟨by omega, rfl⟩
      · rw [if_neg h3]
        simp only [List.cons_append, List.nil_append, utf8DecGo]
        rw [if_neg (by omega), if_neg (by omega), if_neg (by omega), if_pos (by omega)]
        rw [if_pos (show utf8Cont4 (0xF0 + c / 262144) (0x80 + c / 4096 % 64) = true by
          simp only [utf8Cont4, utf8Cont]
          split_ifs with hb1 hb2 <;> (simp; omega))]
        rw [if_neg (by omega)]
        rw [if_pos (utf8Cont_eq_true (by omega) (by omega))]
        rw [if_neg (by omega)]
        rw [if_pos (utf8Cont_eq_true (by omega) (by omega))]
        rw [if_pos trivial]
        simp only [List.nil_append, List.cons.injEq]
        exact ⟨by omega, rfl⟩

theorem utf8Dec_encStr (s : PyStr) (h : validStr s) : utf8Dec (utf8EncStr s) = s := by
  induction s with
  | nil => rfl
  | cons c cs ih =>
    have hc := h c (by simp)
    have hcs : validStr cs := fun x hx => h x (by simp [hx])
    have hstep : utf8EncStr (c :: cs) = utf8Enc c ++ utf8EncStr cs := rfl
    rw [hstep, utf8Dec_enc_append c hc, ih hcs]

/-- Witness for the hypotheses of c7_depth_gate: the concrete crawler
with maxDepth set to 0 fetches exactly its seed. -/
theorem c7_witness :
    (crawlRun { exCrawler with maxDepth := 0 } (fun _ => .failure []) 1
        (initState { exCrawler with maxDepth := 0 })).log.map (·.url) =
      [({ exCrawler with maxDepth := 0 } : Crawler).baseUrl] :=
  c7_depth_gate.2 { exCrawler with maxDepth := 0 } (fun _ => .failure []) 1
    rfl (by decide) (by decide) (by rfl) (by omega)

theorem utf8Cont_le {b : Nat} (h : utf8Cont b = true) : 0x80 ≤ b ∧ b ≤ 0xBF := by
  simp only [utf8Cont, decide_eq_true_eq] at h
  exact h

theorem utf8Cont3_le {b c : Nat} (h : utf8Cont3 b c = true) :
    0x80 ≤ c ∧ c ≤ 0xBF ∧ (b = 0xE0 → 0xA0 ≤ c) ∧ (b = 0xED → c ≤ 0x9F) := by
  simp only [utf8Cont3, utf8Cont] at h
  split_ifs at h with h1 h2 <;> simp only [decide_eq_true_eq] at h <;> omega

theorem utf8Cont4_le {b c : Nat} (h : utf8Cont4 b c = true) :
    0x80 ≤ c ∧ c ≤ 0xBF ∧ (b = 0xF0 → 0x90 ≤ c) ∧ (b = 0xF4 → c ≤ 0x8F) := by
  simp only [utf8Cont4, utf8Cont] at h
  split_ifs at h with h1 h2 <;> simp only [decide_eq_true_eq] at h <;> omega

theorem utf8DecGo_valid (bs : List Nat) :
    ∀ st, SafeSt st → validStr (utf8DecGo st bs) := by
  induction bs with
  | nil =>
    intro st hst c hc
    cases st with
    | none => simp [utf8DecGo] at hc
    | some st =>
      simp only [utf8DecGo, List.mem_singleton] at hc
      subst hc
      exact ⟨by decide, by decide⟩
  | cons b bs ih =>
    have hdisp : validStr (if b < 0x80 then b :: utf8DecGo none bs
        else if 0xC2 ≤ b ∧ b ≤ 0xDF then utf8DecGo (some (1, b - 0xC0, utf8Cont)) bs
        else if 0xE0 ≤ b ∧ b ≤ 0xEF then utf8DecGo (some (2, b - 0xE0, utf8Cont3 b)) bs
        else if 0xF0 ≤ b ∧ b ≤ 0xF4 then utf8DecGo (some (3, b - 0xF0, utf8Cont4 b)) bs
        else repChar :: utf8DecGo none bs) := by
      split_ifs with h1 h2 h3 h4
      · intro c hc
        rcases List.mem_cons.mp hc with rfl | hc
        · exact ⟨by omega, by omega⟩
        · exact ih none trivial c hc
      · apply ih
        show ∀ y, utf8Cont y = true → validScalar ((b - 0xC0) * 64 + (y - 0x80))
        intro y hy
        have hb := utf8Cont_le hy
        exact ⟨by omega, by omega⟩
      · apply ih
        show ∀ y, utf8Cont3 b y = true → ∀ z, utf8Cont z = true →
          validScalar (((b - 0xE0) * 64 + (y - 0x80)) * 64 + (z - 0x80))
        intro y hy z hz
        have hb1 := utf8Cont3_le hy
        have hb2 := utf8Cont_le hz
        exact ⟨by omega, by omega⟩
      · apply ih
        show ∀ y, utf8Cont4 b y = true → ∀ z, utf8Cont z = true → ∀ w, utf8Cont w = true →
          validScalar ((((b - 0xF0) * 64 + (y - 0x80)) * 64 + (z - 0x80)) * 64 + (w - 0x80))
        intro y hy z hz w hw
        have hb1 := utf8Cont4_le hy
        have hb2 := utf8Cont_le hz
        have hb3 := utf8Cont_le hw
        exact ⟨by omega, by omega⟩
      · intro c hc
        rcases List.mem_cons.mp hc with rfl | hc
        · exact ⟨by decide, by decide⟩
        · exact ih none trivial c hc
    intro st hst
    cases st with
    | none =>
      simp only [utf8DecGo]
      exact hdisp
    | some st =>
      obtain ⟨n, acc, test⟩ := st
      simp only [utf8DecGo]
      by_cases ht : test b = true
      · rw [if_pos ht]
        by_cases h1 : n = 1
        · rw [if_pos h1]
          subst h1
          have hst' : ∀ y, test y = true → validScalar (acc * 64 + (y - 0x80)) := hst
          intro c hc
          rcases List.mem_cons.mp hc with he | hc
          · exact he ▸ hst' b ht
          · exact ih none trivial c hc
        · rw [if_neg h1]
          apply ih
          rcases hn2 : n with _ | _ | _ | _ | m
          · subst hn2; exact absurd hst (by simp [SafeSt])
          · exact absurd rfl (hn2 ▸ h1)
          · subst hn2
            have hst' : ∀ y, test y = true → ∀ z, utf8Cont z = true →
                validScalar ((acc * 64 + (y - 0x80)) * 64 + (z - 0x80)) := hst
            show ∀ y, utf8Cont y = true →
              validScalar ((acc * 64 + (b - 0x80)) * 64 + (y - 0x80))
            intro y hy
            exact hst' b ht y hy
          · subst hn2
            have hst' : ∀ y, test y = true → ∀ z, utf8Cont z = true → ∀ w, utf8Cont w = true →
                validScalar (((acc * 64 + (y - 0x80)) * 64 + (z - 0x80)) * 64 + (w - 0x80)) := hst
            show ∀ y, utf8Cont y = true → ∀ z, utf8Cont z = true →
              validScalar (((acc * 64 + (b - 0x80)) * 64 + (y - 0x80)) * 64 + (z - 0x80))
            intro y hy z hz
            exact hst' b ht y hy z hz
          · subst hn2; exact absurd hst (by simp [SafeSt])
      · rw [if_neg ht]
        intro c hc
        rcases List.mem_cons.mp hc with rfl | hc
        · exact ⟨by decide, by decide⟩
        · exact hdisp c hc

theorem utf8Dec_valid (bs : List Nat) : validStr (utf8Dec bs) :=
  utf8DecGo_valid bs none trivial

theorem unquoteGo_valid (s : PyStr) :
    ∀ acc, (∀ c ∈ s, validScalar c) → validStr (unquoteGo acc s) := by
  induction s with
  | nil => intro acc _; exact utf8Dec_valid _
  | cons c cs ih =>
    intro acc hs
    simp only [unquoteGo]
    split_ifs with h1
    · exact ih _ (fun x hx => hs x (List.mem_cons_of_mem _ hx))
    · intro x hx
      rcases List.mem_append.mp hx with hx | hx
      · exact utf8Dec_valid _ x hx
      · rcases List.mem_cons.mp hx with rfl | hx
        · exact hs x (by simp)
        · exact ih [] (fun y hy => hs y (List.mem_cons_of_mem _ hy)) x hx

theorem pyUnquote_valid (s : PyStr) (hs : validStr s) : validStr (pyUnquote s) := by
  unfold pyUnquote
  split_ifs with h
  · exact unquoteGo_valid s [] hs
  · exact hs

theorem validStr_subset {s t : PyStr} (h : s ⊆ t) (ht : validStr t) : validStr s :=
  fun c hc => ht c (h hc)

theorem alwaysSafe_props {c : Nat} (h : alwaysSafe c = true) :
    32 < c ∧ c < 128 ∧ c ≠ 43 ∧ c ≠ 37 ∧ c ≠ 38 ∧ c ≠ 61 ∧ c ≠ 63 ∧ c ≠ 35 ∧
      c ≠ 58 ∧ c ≠ 9 ∧ c ≠ 13 ∧ c ≠ 10 ∧ c ≠ 47 := by
  simp only [alwaysSafe, decide_eq_true_eq] at h
  omega

theorem hexDigitChar_spec : ∀ n < 16, hexVal (hexDigitChar n) = n ∧
    isHexDigit (hexDigitChar n) = true ∧
    ((48 ≤ hexDigitChar n ∧ hexDigitChar n ≤ 57) ∨
      (65 ≤ hexDigitChar n ∧ hexDigitChar n ≤ 70)) := by decide

theorem utf8Enc_lt256 {x : Nat} (hx : x < 0x110000) : ∀ b ∈ utf8Enc x, b < 256 := by
  unfold utf8Enc
  split_ifs <;> intro b hb <;>
    simp only [List.mem_cons, List.mem_singleton, List.not_mem_nil, or_false] at hb <;>
    omega

theorem utf8Enc_ne_nil (x : Nat) : utf8Enc x ≠ [] := by
  unfold utf8Enc
  split_ifs <;> simp

theorem pctDecode_nil : pctDecode [] = [] := rfl

theorem pctDecode_cons_ne {c : Nat} (h : c ≠ 37) (r : List Nat) :
    pctDecode (c :: r) = c :: pctDecode r := by
  rw [pctDecode.eq_def]
  simp only []
  rw [if_neg h]

theorem pctDecode_hex {h1 h2 : Nat} (e1 : isHexDigit h1 = true) (e2 : isHexDigit h2 = true)
    (r : List Nat) :
    pctDecode (37 :: h1 :: h2 :: r) = (hexVal h1 * 16 + hexVal h2) :: pctDecode r := by
  rw [pctDecode.eq_def]
  simp only []
  rw [if_pos trivial, if_pos ⟨e1, e2⟩]

theorem pctDecode_pctByte {b : Nat} (hb : b < 256) (r : List Nat) :
    pctDecode (pctByte b ++ r) = b :: pctDecode r := by
  obtain ⟨e1, e2, e3⟩ := hexDigitChar_spec (b / 16) (by omega)
  obtain ⟨f1, f2, f3⟩ := hexDigitChar_spec (b % 16) (by omega)
  show pctDecode (37 :: hexDigitChar (b / 16) :: hexDigitChar (b % 16) :: r) = b :: pctDecode r
  rw [pctDecode_hex e2 f2, e1, f1]
  have hbb : b / 16 * 16 + b % 16 = b := by omega
  rw [hbb]

theorem pctDecode_flat {l : List Nat} (hl : ∀ b ∈ l, b < 256) (r : List Nat) :
    pctDecode (l.flatMap pctByte ++ r) = l ++ pctDecode r := by
  induction l with
  | nil => simp
  | cons b t ih =>
    simp only [List.flatMap_cons, List.append_assoc]
    rw [pctDecode_pctByte (hl b (by simp)), ih (fun x hx => hl x (by simp [hx]))]
    rfl

theorem qpChar2_lt128 {c : Nat} (hc : validScalar c) : ∀ x ∈ qpChar2 c, x < 0x80 := by
  intro x hx
  unfold qpChar2 at hx
  split_ifs at hx with hs1 hs2
  · simp only [List.mem_singleton] at hx
    subst hx
    exact (alwaysSafe_props hs1).2.1
  · simp only [List.mem_singleton] at hx
    omega
  · rcases List.mem_flatMap.mp hx with ⟨b, hb, hxb⟩
    have hb256 := utf8Enc_lt256 hc.1 b hb
    obtain ⟨g1, g2, g3⟩ := hexDigitChar_spec (b / 16) (by omega)
    obtain ⟨k1, k2, k3⟩ := hexDigitChar_spec (b % 16) (by omega)
    simp only [pctByte, List.mem_cons, List.not_mem_nil, or_false] at hxb
    rcases hxb with rfl | rfl | rfl <;> omega

theorem unquoteGo_ascii (t : PyStr) : ∀ acc, (∀ c ∈ t, c < 0x80) →
    unquoteGo acc t = utf8Dec (pctDecode (acc ++ t)) := by
  induction t with
  | nil => intro acc _; simp [unquoteGo]
  | cons c cs ih =>
    intro acc h
    simp only [unquoteGo]
    rw [if_pos (h c (by simp))]
    rw [ih (acc ++ [c]) (fun x hx => h x (by simp [hx]))]
    simp

theorem replaceChar_append (o n : Nat) (a b : PyStr) :
    replaceChar o n (a ++ b) = replaceChar o n a ++ replaceChar o n b :=
  List.map_append ..

theorem replaceChar_qpc {c : Nat} (hc : validScalar c) :
    replaceChar 43 32 (quotePlusChar c) = qpChar2 c := by
  unfold quotePlusChar qpChar2
  split_ifs with hs1 hs2
  · show [if c = 43 then 32 else c] = [c]
    rw [if_neg (alwaysSafe_props hs1).2.2.1]
  · rfl
  · show List.map _ _ = _
    rw [List.map_congr_left, List.map_id]
    intro x hx
    rcases List.mem_flatMap.mp hx with ⟨b, hb, hxb⟩
    have hb256 := utf8Enc_lt256 hc.1 b hb
    obtain ⟨g1, g2, g3⟩ := hexDigitChar_spec (b / 16) (by omega)
    obtain ⟨k1, k2, k3⟩ := hexDigitChar_spec (b % 16) (by omega)
    simp only [pctByte, List.mem_cons, List.not_mem_nil, or_false] at hxb
    show (if x = 43 then 32 else x) = x
    rcases hxb with rfl | rfl | rfl <;> rw [if_neg (by omega)]

theorem replaceChar_quotePlus (s : PyStr) : validStr s →
    replaceChar 43 32 (quotePlus s) = s.flatMap qpChar2 := by
  induction s with
  | nil => intro _; rfl
  | cons c cs ih =>
    intro hs
    have e : quotePlus (c :: cs) = quotePlusChar c ++ quotePlus cs := List.flatMap_cons ..
    rw [e, replaceChar_append, replaceChar_qpc (hs c (by simp)),
      ih (fun x hx => hs x (by simp [hx])), List.flatMap_cons]

theorem pctDecode_qpc (s : PyStr) : validStr s → ∀ r,
    pctDecode (s.flatMap qpChar2 ++ r) = utf8EncStr s ++ pctDecode r := by
  induction s with
  | nil => intro _ r; simp [utf8EncStr]
  | cons c cs ih =>
    intro hs r
    have hc : validScalar c := hs c (by simp)
    have hcs : validStr cs := fun x hx => hs x (by simp [hx])
    simp only [List.flatMap_cons, List.append_assoc]
    have step : pctDecode (qpChar2 c ++ (cs.flatMap qpChar2 ++ r)) =
        utf8Enc c ++ pctDecode (cs.flatMap qpChar2 ++ r) := by
      by_cases hs1 : alwaysSafe c = true
      · have eq1 : qpChar2 c = [c] := by unfold qpChar2; rw [if_pos hs1]
        rw [eq1, List.singleton_append, pctDecode_cons_ne (alwaysSafe_props hs1).2.2.2.1]
        have eq2 : utf8Enc c = [c] := by
          unfold utf8Enc; rw [if_pos (alwaysSafe_props hs1).2.1]
        rw [eq2, List.singleton_append]
      · by_cases hs2 : c = 32
        · subst hs2
          have eq1 : qpChar2 32 = [32] := by unfold qpChar2; rw [if_neg hs1, if_pos rfl]
          rw [eq1, List.singleton_append, pctDecode_cons_ne (by omega)]
          rfl
        · have eq1 : qpChar2 c = (utf8Enc c).flatMap pctByte := by
            unfold qpChar2; rw [if_neg hs1, if_neg hs2]
          rw [eq1]
          exact pctDecode_flat (utf8Enc_lt256 hc.1) _
    rw [step, ih hcs r]
    simp [utf8EncStr]

theorem qp_no_pct (s : PyStr) : 37 ∉ s.flatMap qpChar2 → s.flatMap qpChar2 = s := by
  induction s with
  | nil => intro _; rfl
  | cons c cs ih =>
    intro h
    simp only [List.flatMap_cons] at h ⊢
    have h1 : 37 ∉ qpChar2 c := fun hx => h (List.mem_append.mpr (Or.inl hx))
    have h2 := ih (fun hx => h (List.mem_append.mpr (Or.inr hx)))
    rw [h2]
    unfold qpChar2
    split_ifs with ha hb
    · rfl
    · subst hb; rfl
    · exfalso
      apply h1
      unfold qpChar2
      rw [if_neg ha, if_neg hb]
      rcases e : utf8Enc c with _ | ⟨b, t⟩
      · exact absurd e (utf8Enc_ne_nil c)
      · simp [pctByte]

theorem quotePlus_unquote {s : PyStr} (hs : validStr s) :
    pyUnquote (replaceChar 43 32 (quotePlus s)) = s := by
  rw [replaceChar_quotePlus s hs]
  unfold pyUnquote
  split_ifs with h37
  · have hlt : ∀ c ∈ s.flatMap qpChar2, c < 0x80 := by
      intro c hc
      rcases List.mem_flatMap.mp hc with ⟨a, ha, hca⟩
      exact qpChar2_lt128 (hs a ha) c hca
    rw [unquoteGo_ascii _ [] hlt]
    simp only [List.nil_append]
    have h2 := pctDecode_qpc s hs []
    rw [List.append_nil] at h2
    rw [h2, pctDecode_nil, List.append_nil]
    exact utf8Dec_encStr s hs
  · exact qp_no_pct s h37

theorem takeWhile_middle (p : Nat → Bool) : ∀ (A : PyStr) (x : Nat) (B : PyStr),
    (∀ a ∈ A, p a = true) → p x = false →
    (A ++ x :: B).takeWhile p = A ∧ (A ++ x :: B).dropWhile p = x :: B := by
  intro A
  induction A with
  | nil =>
    intro x B _ hx
    constructor
    · simp [List.takeWhile_cons, hx]
    · simp [List.dropWhile_cons, hx]
  | cons a t ih =>
    intro x B hA hx
    have ha : p a = true := hA a (by simp)
    obtain ⟨e1, e2⟩ := ih x B (fun y hy => hA y (by simp [hy])) hx
    constructor
    · simp only [List.cons_append, List.takeWhile_cons, ha, if_true, e1]
    · simp only [List.cons_append, List.dropWhile_cons, ha, if_true, e2]

theorem splitFirst_append {sep : Nat} {A : PyStr} (hA : sep ∉ A) (B : PyStr) :
    splitFirst sep (A ++ sep :: B) = (A, some B) := by
  unfold splitFirst
  obtain ⟨e1, e2⟩ := takeWhile_middle (fun x => decide (x ≠ sep)) A sep B
    (fun a ha => decide_eq_true (fun e => hA (e ▸ ha)))
    (by simp)
  rw [e1, e2]

theorem splitFirst_no {sep : Nat} {s : PyStr} (h : sep ∉ s) : splitFirst sep s = (s, none) := by
  unfold splitFirst
  have e1 : s.takeWhile (fun c => decide (c ≠ sep)) = s :=
    List.takeWhile_eq_self_iff.mpr (fun x hx => decide_eq_true (fun e => h (e ▸ hx)))
  have e2 : s.dropWhile (fun c => decide (c ≠ sep)) = [] :=
    List.dropWhile_eq_nil_iff.mpr (fun x hx => decide_eq_true (fun e => h (e ▸ hx)))
  rw [e1, e2]

theorem splitAll_not_mem {sep : Nat} {s : PyStr} (h : sep ∉ s) : splitAll sep s = [s] := by
  induction s with
  | nil => rfl
  | cons a t ih =>
    simp only [splitAll]
    rw [if_neg (by intro e; subst e; exact h (List.mem_cons_self ..))]
    rw [ih (fun hx => h (List.mem_cons_of_mem _ hx))]

theorem splitAll_append_sep {sep : Nat} {p : PyStr} (t : PyStr) : sep ∉ p →
    splitAll sep (p ++ sep :: t) = p :: splitAll sep t := by
  induction p with
  | nil =>
    intro _
    simp only [List.nil_append, splitAll]
    rw [if_pos trivial]
  | cons a q ih =>
    intro hp
    have ha : a ≠ sep := by intro e; subst e; exact hp (List.mem_cons_self ..)
    simp only [List.cons_append, splitAll]
    rw [if_neg ha]
    simp only [List.append_eq]
    rw [ih (fun hx => hp (List.mem_cons_of_mem _ hx))]

theorem splitAll_joinWith (sep : Nat) : ∀ ps : List PyStr, ps ≠ [] →
    (∀ p ∈ ps, sep ∉ p) → splitAll sep (joinWith sep ps) = ps := by
  intro ps
  induction ps with
  | nil => intro h0 _; exact absurd rfl h0
  | cons p qs ih =>
    intro _ h
    cases qs with
    | nil => exact splitAll_not_mem (h p (by simp))
    | cons q rs =>
      have e : joinWith sep (p :: q :: rs) = p ++ sep :: joinWith sep (q :: rs) := rfl
      rw [e, splitAll_append_sep _ (h p (by simp)),
        ih (by simp) (fun x hx => h x (by simp [hx]))]

theorem filterMap_eq_self {α : Type} {f : α → Option α} : ∀ l : List α,
    (∀ a ∈ l, f a = some a) → l.filterMap f = l := by
  intro l
  induction l with
  | nil => intro _; rfl
  | cons a t ih =>
    intro h
    rw [List.filterMap_cons, h a (by simp), ih (fun x hx => h x (by simp [hx]))]

theorem quotePlusChar_cases {c x : Nat} (hc : validScalar c) (hx : x ∈ quotePlusChar c) :
    alwaysSafe x = true ∨ x = 43 ∨ x = 37 ∨ (48 ≤ x ∧ x ≤ 57) ∨ (65 ≤ x ∧ x ≤ 70) := by
  unfold quotePlusChar at hx
  split_ifs at hx with h1 h2
  · simp only [List.mem_singleton] at hx
    subst hx
    exact Or.inl h1
  · simp only [List.mem_singleton] at hx
    subst hx
    exact Or.inr (Or.inl rfl)
  · rcases List.mem_flatMap.mp hx with ⟨b, hb, hxb⟩
    have hb256 := utf8Enc_lt256 hc.1 b hb
    obtain ⟨g1, g2, g3⟩ := hexDigitChar_spec (b / 16) (by omega)
    obtain ⟨k1, k2, k3⟩ := hexDigitChar_spec (b % 16) (by omega)
    simp only [pctByte, List.mem_cons, List.not_mem_nil, or_false] at hxb
    rcases hxb with rfl | rfl | rfl
    · exact Or.inr (Or.inr (Or.inl rfl))
    · exact Or.inr (Or.inr (Or.inr g3))
    · exact Or.inr (Or.inr (Or.inr k3))

theorem quotePlus_chars {s : PyStr} (hs : validStr s) : ∀ x ∈ quotePlus s,
    32 < x ∧ x < 128 ∧ x ≠ 38 ∧ x ≠ 61 ∧ x ≠ 63 ∧ x ≠ 35 ∧ x ≠ 58 ∧
      x ≠ 9 ∧ x ≠ 13 ∧ x ≠ 10 := by
  intro x hx
  rcases List.mem_flatMap.mp hx with ⟨a, ha, hxa⟩
  rcases quotePlusChar_cases (hs a ha) hxa with h | h | h | h | h
  · have := alwaysSafe_props h
    omega
  · omega
  · omega
  · omega
  · omega

theorem joinWith_cons_ne {sep : Nat} {p : PyStr} (hp : p ≠ []) (ps : List PyStr) :
    joinWith sep (p :: ps) ≠ [] := by
  cases ps with
  | nil => exact hp
  | cons q rs =>
    show p ++ sep :: joinWith sep (q :: rs) ≠ []
    simp

theorem pyParseQsl_urlencode : ∀ fp : List (PyStr × PyStr),
    (∀ kv ∈ fp, validStr kv.1 ∧ validStr kv.2) →
    pyParseQsl (pyUrlencode fp) = fp := by
  intro fp hfp
  cases fp with
  | nil => rfl
  | cons kv0 rest =>
    have hpiece38 : ∀ p ∈ (kv0 :: rest).map (fun kv => quotePlus kv.1 ++ 61 :: quotePlus kv.2),
        (38 : Nat) ∉ p := by
      intro p hp
      rcases List.mem_map.mp hp with ⟨x, hx, he⟩
      subst he
      intro hmem
      rcases List.mem_append.mp hmem with hm | hm
      · exact absurd rfl (quotePlus_chars (hfp x hx).1 38 hm).2.2.1
      · rcases List.mem_cons.mp hm with e | hm
        · exact absurd e (by omega)
        · exact absurd rfl (quotePlus_chars (hfp x hx).2 38 hm).2.2.1
    have hq_ne : joinWith 38 ((kv0 :: rest).map
        (fun kv => quotePlus kv.1 ++ 61 :: quotePlus kv.2)) ≠ [] := by
      rw [List.map_cons]
      exact joinWith_cons_ne (by simp) _
    show pyParseQsl (joinWith 38 ((kv0 :: rest).map
        (fun kv => quotePlus kv.1 ++ 61 :: quotePlus kv.2))) = kv0 :: rest
    unfold pyParseQsl
    rw [if_neg hq_ne]
    rw [splitAll_joinWith 38 _ (by simp) hpiece38]
    rw [List.filterMap_map]
    apply filterMap_eq_self
    intro x hx
    have hk := (hfp x hx).1
    have hv := (hfp x hx).2
    have h61 : (61 : Nat) ∉ quotePlus x.1 :=
      fun hm => absurd rfl (quotePlus_chars hk 61 hm).2.2.2.1
    simp only [Function.comp_apply]
    rw [if_neg (by simp)]
    rw [splitFirst_append h61]
    simp only [Option.getD_some]
    rw [quotePlus_unquote hk, quotePlus_unquote hv]

theorem schemeChars_mem_props : ∀ c ∈ schemeChars, c ≠ 58 ∧ 32 < c ∧ c < 128 ∧
    c ≠ 9 ∧ c ≠ 13 ∧ c ≠ 10 ∧ c ≠ 35 ∧ c ≠ 63 ∧ lowerChar c ∈ schemeChars := by decide

theorem lowerChar_idem (c : Nat) : lowerChar (lowerChar c) = lowerChar c := by
  unfold lowerChar
  split_ifs <;> omega

theorem isAsciiAlpha_lower {c : Nat} (h : isAsciiAlpha c = true) :
    isAsciiAlpha (lowerChar c) = true := by
  simp only [isAsciiAlpha, lowerChar, decide_eq_true_eq] at h ⊢
  split_ifs <;> omega

theorem pyLower_pyLower (s : PyStr) : pyLower (pyLower s) = pyLower s := by
  unfold pyLower
  rw [List.map_map]
  exact List.map_congr_left (fun a _ => lowerChar_idem a)

theorem stripControl_subset (s : PyStr) : stripControl s ⊆ s :=
  (List.filter_sublist s).subset

theorem lstripC0_subset (s : PyStr) : lstripC0 s ⊆ s :=
  (List.dropWhile_sublist _).subset

theorem stripControl_mem {s : PyStr} {c : Nat} (h : c ∈ stripControl s) :
    c ∈ s ∧ c ≠ 9 ∧ c ≠ 13 ∧ c ≠ 10 := by
  rcases List.mem_filter.mp h with ⟨h1, h2⟩
  simp only [decide_eq_true_eq] at h2
  exact ⟨h1, h2⟩

theorem stripControl_eq_self {s : PyStr} (h : ∀ c ∈ s, c ≠ 9 ∧ c ≠ 13 ∧ c ≠ 10) :
    stripControl s = s :=
  List.filter_eq_self.mpr (fun a ha => decide_eq_true (h a ha))

theorem lstripC0_eq_self {s : PyStr} (h : 32 < s.headD 33) : lstripC0 s = s := by
  cases s with
  | nil => rfl
  | cons a t =>
    unfold lstripC0
    rw [List.dropWhile_cons_of_neg]
    simp only [decide_eq_true_eq]
    simp only [List.headD_cons] at h
    omega

theorem pyFind_append_sep {c : Nat} : ∀ {A : PyStr}, c ∉ A → ∀ B : PyStr,
    pyFind c (A ++ c :: B) = some A.length := by
  intro A
  induction A with
  | nil =>
    intro _ B
    simp [pyFind]
  | cons a t ih =>
    intro h B
    have ha : a ≠ c := by intro e; subst e; exact h (List.mem_cons_self ..)
    simp only [List.cons_append, pyFind]
    rw [if_neg ha]
    simp only [List.append_eq]
    rw [ih (fun hx => h (List.mem_cons_of_mem _ hx)) B]
    simp

theorem colonScan_scheme {S : PyStr} (R : PyStr) (h1 : S ≠ [])
    (h2 : isAsciiAlpha (S.headD 0) = true) (h3 : ∀ c ∈ S, c ∈ schemeChars) :
    colonScan (S ++ 58 :: R) = some (pyLower S, R) := by
  have h58 : (58 : Nat) ∉ S := fun hm => (schemeChars_mem_props 58 (h3 58 hm)).1 rfl
  unfold colonScan
  rw [pyFind_append_sep h58 R]
  simp only []
  rw [if_pos ?hcond]
  case hcond =>
    refine ⟨List.length_pos.mpr h1, ?_, ?_⟩
    · cases S with
      | nil => exact absurd rfl h1
      | cons a t => exact h2
    · rw [List.take_left]
      exact List.all_eq_true.mpr (fun c hc => List.elem_iff.mpr (h3 c hc))
  rw [List.take_left]
  have e : (S ++ [58]).length = S.length + 1 := by simp
  have e2 : (S ++ 58 :: R).drop (S.length + 1) = R := by
    rw [show S ++ 58 :: R = (S ++ [58]) ++ R by simp, ← e, List.drop_left]
  rw [e2]

theorem colonScan_parts {u sc r : PyStr} (h : colonScan u = some (sc, r)) :
    ∃ i, 0 < i ∧ isAsciiAlpha (u.headD 0) = true ∧
      (u.take i).all (fun c => schemeChars.contains c) = true ∧
      sc = pyLower (u.take i) ∧ r = u.drop (i + 1) := by
  unfold colonScan at h
  rcases hf : pyFind 58 u with _ | i <;> rw [hf] at h
  · cases h
  · simp only [] at h
    split_ifs at h with hc
    rcases h with ⟨⟩
    exact ⟨i, hc.1, hc.2.1, hc.2.2, rfl, rfl⟩

theorem dropWhile_append_stop {p : Nat → Bool} {x : Nat} (hx : p x = false) :
    ∀ (A B : PyStr), (A ++ x :: B).dropWhile p = A.dropWhile p ++ x :: B := by
  intro A B
  induction A with
  | nil => simp [List.dropWhile_cons, hx]
  | cons a t ih =>
    simp only [List.cons_append, List.dropWhile_cons]
    by_cases hpa : p a = true
    · simp only [hpa, if_true]
      exact ih
    · have hf : p a = false := by revert hpa; cases p a <;> simp
      simp [hf]

theorem splitFirst_fst_subset (c : Nat) (s : PyStr) : (splitFirst c s).1 ⊆ s := by
  unfold splitFirst
  rcases e : s.dropWhile (fun x => decide (x ≠ c)) with _ | ⟨hd, t⟩ <;>
    exact (List.takeWhile_sublist _).subset

theorem splitFirst_fst_mem {c x : Nat} {s : PyStr} (h : x ∈ (splitFirst c s).1) :
    x ∈ s ∧ x ≠ c := by
  unfold splitFirst at h
  rcases e : s.dropWhile (fun y => decide (y ≠ c)) with _ | ⟨hd, t⟩ <;> rw [e] at h <;>
    exact ⟨(List.takeWhile_sublist _).subset h,
      by have := List.mem_takeWhile_imp h; simpa using this⟩

theorem splitFirst_snd_subset {c : Nat} {s r : PyStr} (h : (splitFirst c s).2 = some r) :
    r ⊆ s := by
  unfold splitFirst at h
  rcases e : s.dropWhile (fun x => decide (x ≠ c)) with _ | ⟨hd, t⟩ <;> rw [e] at h
  · cases h
  · cases h
    intro x hx
    exact (List.dropWhile_sublist _).subset (e ▸ List.mem_cons_of_mem _ hx)

theorem splitParams_subset (u : PyStr) : (splitParams u).1 ⊆ u ∧ (splitParams u).2 ⊆ u := by
  unfold splitParams
  split_ifs with h47
  · rcases e1 : pyRFind 47 u with _ | j
    · exact ⟨fun _ h => h, List.nil_subset _⟩
    · simp only []
      rcases e2 : pyFindFrom 59 j u with _ | i
      · exact ⟨fun _ h => h, List.nil_subset _⟩
      · simp only []
        exact ⟨(List.take_sublist _ _).subset, (List.drop_sublist _ _).subset⟩
  · rcases e1 : pyFind 59 u with _ | i
    · exact ⟨fun _ h => h, List.nil_subset _⟩
    · simp only []
      exact ⟨(List.take_sublist _ _).subset, (List.drop_sublist _ _).subset⟩

theorem splitAll_mem_subset {sep : Nat} : ∀ {s p : PyStr}, p ∈ splitAll sep s → p ⊆ s := by
  intro s
  induction s with
  | nil =>
    intro p hp
    simp only [splitAll, List.mem_singleton] at hp
    subst hp
    exact List.nil_subset _
  | cons a t ih =>
    intro p hp
    simp only [splitAll] at hp
    split_ifs at hp with ha
    · rcases List.mem_cons.mp hp with rfl | hp
      · exact List.nil_subset _
      · exact (ih hp).trans (List.subset_cons_self ..)
    · rcases e : splitAll sep t with _ | ⟨q, qs⟩ <;> rw [e] at hp
      · simp only [List.mem_singleton] at hp
        subst hp
        intro x hx
        simp only [List.mem_singleton] at hx
        subst hx
        exact List.mem_cons_self ..
      · rcases List.mem_cons.mp hp with rfl | hp2
        · intro x hx
          rcases List.mem_cons.mp hx with rfl | hx
          · exact List.mem_cons_self ..
          · exact List.mem_cons_of_mem _ (ih (e.symm ▸ List.mem_cons_self q qs) hx)
        · exact (ih (e.symm ▸ List.mem_cons_of_mem q hp2)).trans (List.subset_cons_self ..)

theorem replaceChar_valid {s : PyStr} (hs : validStr s) : validStr (replaceChar 43 32 s) := by
  intro c hc
  rcases List.mem_map.mp hc with ⟨a, ha, he⟩
  subst he
  split_ifs with h
  · exact ⟨by omega, by omega⟩
  · exact hs a ha

theorem pyParseQsl_valid {qs : PyStr} (hqs : validStr qs) :
    ∀ kv ∈ pyParseQsl qs, validStr kv.1 ∧ validStr kv.2 := by
  intro kv hkv
  unfold pyParseQsl at hkv
  by_cases h0 : qs = []
  · rw [if_pos h0] at hkv
    simp at hkv
  · rw [if_neg h0] at hkv
    rcases List.mem_filterMap.mp hkv with ⟨nv, hnv, he⟩
    have hnvv : validStr nv := validStr_subset (splitAll_mem_subset hnv) hqs
    by_cases hne : nv = []
    · rw [if_pos hne] at he
      cases he
    · rw [if_neg hne] at he
      rcases e : splitFirst 61 nv with ⟨n, v⟩
      rw [e] at he
      rcases he with ⟨⟩
      have hn : validStr n := by
        have hsub := splitFirst_fst_subset 61 nv
        rw [e] at hsub
        exact validStr_subset hsub hnvv
      have hv : validStr (v.getD []) := by
        cases v with
        | none => intro x hx; cases hx
        | some r =>
          have hsub : r ⊆ nv := splitFirst_snd_subset (by rw [e])
          exact validStr_subset hsub hnvv
      exact ⟨pyUnquote_valid _ (replaceChar_valid hn), pyUnquote_valid _ (replaceChar_valid hv)⟩

theorem splitRest_eq (rest : PyStr) :
    splitRest rest =
      ((if pyStartsWith rest (pstr "//") = true then (splitNetloc (rest.drop 2)).1 else []),
       (splitFirst 63 ((splitFirst 35 (if pyStartsWith rest (pstr "//") = true
           then (splitNetloc (rest.drop 2)).2 else rest)).1)).1,
       ((splitFirst 63 ((splitFirst 35 (if pyStartsWith rest (pstr "//") = true
           then (splitNetloc (rest.drop 2)).2 else rest)).1)).2).getD [],
       ((splitFirst 35 (if pyStartsWith rest (pstr "//") = true
           then (splitNetloc (rest.drop 2)).2 else rest)).2).getD []) := rfl

theorem rest1_subset (rest : PyStr) :
    (if pyStartsWith rest (pstr "//") = true
        then (splitNetloc (rest.drop 2)).2 else rest) ⊆ rest := by
  split_ifs
  · exact ((List.dropWhile_sublist _).subset).trans ((List.drop_sublist _ _).subset)
  · exact fun _ h => h

theorem splitRest_query_frag (rest0 D q : PyStr)
    (hD : ∀ c ∈ D, c ≠ 35 ∧ c ≠ 63) (hq : ∀ c ∈ q, c ≠ 35)
    (he : (if pyStartsWith rest0 (pstr "//") = true
        then (splitNetloc (rest0.drop 2)).2 else rest0) = D ++ 63 :: q) :
    (splitRest rest0).2.2.1 = q ∧ (splitRest rest0).2.2.2 = [] := by
  have h35 : (35 : Nat) ∉ D ++ 63 :: q := by
    intro hm
    rcases List.mem_append.mp hm with hm | hm
    · exact (hD 35 hm).1 rfl
    · rcases List.mem_cons.mp hm with e | hm
      · exact absurd e (by omega)
      · exact (hq 35 hm) rfl
  have h63D : (63 : Nat) ∉ D := fun hm => (hD 63 hm).2 rfl
  have hsf35 := splitFirst_no h35
  have hsf63 := splitFirst_append h63D q
  rw [splitRest_eq, he, hsf35]
  simp only []
  rw [hsf63]
  simp

theorem splitRest_noQF (rest0 : PyStr)
    (hP : ∀ c ∈ (if pyStartsWith rest0 (pstr "//") = true
        then (splitNetloc (rest0.drop 2)).2 else rest0), c ≠ 35 ∧ c ≠ 63) :
    (splitRest rest0).2.2.1 = [] ∧ (splitRest rest0).2.2.2 = [] := by
  have hsf35 := splitFirst_no (fun hm => (hP 35 hm).1 rfl)
  rw [splitRest_eq, hsf35]
  simp only []
  have hsf63 := splitFirst_no (fun hm => (hP 63 hm).2 rfl)
  rw [hsf63]
  simp

theorem rest1_of_append (P q : PyStr) (hP : ∀ c ∈ P, c ≠ 35 ∧ c ≠ 63) :
    ∃ D, (∀ c ∈ D, c ≠ 35 ∧ c ≠ 63) ∧
      (if pyStartsWith (P ++ 63 :: q) (pstr "//") = true then
          (splitNetloc ((P ++ 63 :: q).drop 2)).2 else P ++ 63 :: q) = D ++ 63 :: q := by
  by_cases hpre : pyStartsWith (P ++ 63 :: q) (pstr "//") = true
  · rw [if_pos hpre]
    have hpfx : pstr "//" <+: P ++ 63 :: q := List.isPrefixOf_iff_prefix.mp hpre
    obtain ⟨t, ht⟩ := hpfx
    have e47 : pstr "//" = [47, 47] := rfl
    rw [e47] at ht
    rcases P with _ | ⟨p1, P1⟩
    · exfalso
      simp only [List.cons_append, List.nil_append, List.cons.injEq] at ht
      exact absurd ht.1 (by omega)
    rcases P1 with _ | ⟨p2, P2⟩
    · exfalso
      simp only [List.cons_append, List.nil_append, List.cons.injEq] at ht
      obtain ⟨e1, e2, _⟩ := ht
      omega
    · simp only [List.cons_append, List.cons.injEq] at ht
      obtain ⟨e1, e2, e3⟩ := ht
      subst e1
      subst e2
      refine ⟨List.dropWhile (fun c => decide (c ≠ 47 ∧ c ≠ 63 ∧ c ≠ 35)) P2, ?_, ?_⟩
      · intro c hc
        exact hP c (List.mem_cons_of_mem _ (List.mem_cons_of_mem _
          ((List.dropWhile_sublist _).subset hc)))
      · have harg : (((47 : Nat) :: 47 :: P2) ++ 63 :: q).drop 2 = P2 ++ 63 :: q := rfl
        unfold splitNetloc
        rw [harg]
        exact dropWhile_append_stop (by decide) P2 q
  · rw [if_neg hpre]
    exact ⟨P, hP, rfl⟩

theorem splitRest_charfacts {rest : PyStr} {Props : Nat → Prop} (h : ∀ c ∈ rest, Props c) :
    (∀ c ∈ (splitRest rest).1, Props c ∧ c ≠ 47 ∧ c ≠ 63 ∧ c ≠ 35) ∧
    (∀ c ∈ (splitRest rest).2.1, Props c ∧ c ≠ 63 ∧ c ≠ 35) ∧
    (∀ c ∈ (splitRest rest).2.2.1, Props c ∧ c ≠ 35) := by
  have hr1 := rest1_subset rest
  rw [splitRest_eq]
  refine ⟨?_, ?_, ?_⟩
  · intro c hc
    simp only [] at hc
    by_cases hpre : pyStartsWith rest (pstr "//") = true
    · rw [if_pos hpre] at hc
      have hp := List.mem_takeWhile_imp hc
      simp only [decide_eq_true_eq] at hp
      have hmem : c ∈ rest :=
        (List.drop_sublist _ _).subset ((List.takeWhile_sublist _).subset hc)
      exact ⟨h c hmem, hp⟩
    · rw [if_neg hpre] at hc
      cases hc
  · intro c hc
    simp only [] at hc
    obtain ⟨hc2, h63⟩ := splitFirst_fst_mem hc
    obtain ⟨hc1, h35⟩ := splitFirst_fst_mem hc2
    exact ⟨h c (hr1 hc1), h63, h35⟩
  · intro c hc
    simp only [] at hc
    rcases e : (splitFirst 63 ((splitFirst 35 (if pyStartsWith rest (pstr "//") = true
        then (splitNetloc (rest.drop 2)).2 else rest)).1)).2 with _ | r
    · rw [e] at hc
      cases hc
    · rw [e] at hc
      simp only [Option.getD_some] at hc
      have hsub := splitFirst_snd_subset e
      obtain ⟨hc1, h35⟩ := splitFirst_fst_mem (hsub hc)
      exact ⟨h c (hr1 hc1), h35⟩

theorem pyUrlsplit_recompose {S : PyStr} (P q : PyStr)
    (hS1 : S ≠ []) (hS2 : isAsciiAlpha (S.headD 0) = true)
    (hS3 : ∀ c ∈ S, c ∈ schemeChars) (hS4 : pyLower S = S)
    (hP : ∀ c ∈ P, c ≠ 9 ∧ c ≠ 13 ∧ c ≠ 10 ∧ c ≠ 35 ∧ c ≠ 63)
    (hq : ∀ c ∈ q, c ≠ 9 ∧ c ≠ 13 ∧ c ≠ 10 ∧ c ≠ 35) :
    (pyUrlsplit (S ++ 58 :: (P ++ if q = [] then [] else 63 :: q)) []).scheme = S ∧
    (pyUrlsplit (S ++ 58 :: (P ++ if q = [] then [] else 63 :: q)) []).query = q ∧
    (pyUrlsplit (S ++ 58 :: (P ++ if q = [] then [] else 63 :: q)) []).fragment = [] := by
  have hhead : 32 < (S ++ 58 :: (P ++ if q = [] then [] else 63 :: q)).headD 33 := by
    cases S with
    | nil => exact absurd rfl hS1
    | cons a t =>
      simp only [List.cons_append, List.headD_cons]
      simp only [List.headD_cons] at hS2
      simp only [isAsciiAlpha, decide_eq_true_eq] at hS2
      omega
  have hctrl : ∀ c ∈ S ++ 58 :: (P ++ if q = [] then [] else 63 :: q),
      c ≠ 9 ∧ c ≠ 13 ∧ c ≠ 10 := by
    intro c hc
    rcases List.mem_append.mp hc with hm | hm
    · have := schemeChars_mem_props c (hS3 c hm)
      exact ⟨this.2.2.2.1, this.2.2.2.2.1, this.2.2.2.2.2.1⟩
    · rcases List.mem_cons.mp hm with e | hm
      · subst e; exact ⟨by omega, by omega, by omega⟩
      · rcases List.mem_append.mp hm with hm | hm
        · exact ⟨(hP c hm).1, (hP c hm).2.1, (hP c hm).2.2.1⟩
        · by_cases hq0 : q = []
          · rw [if_pos hq0] at hm; cases hm
          · rw [if_neg hq0] at hm
            rcases List.mem_cons.mp hm with e | hm
            · subst e; exact ⟨by omega, by omega, by omega⟩
            · exact ⟨(hq c hm).1, (hq c hm).2.1, (hq c hm).2.2.1⟩
  unfold pyUrlsplit
  rw [lstripC0_eq_self hhead, stripControl_eq_self hctrl]
  simp only []
  rw [colonScan_scheme (P ++ if q = [] then [] else 63 :: q) hS1 hS2 hS3]
  simp only []
  rw [hS4]
  refine ⟨rfl, ?_, ?_⟩
  · by_cases hq0 : q = []
    · subst hq0
      have eQ : P ++ (if ([] : PyStr) = [] then [] else 63 :: ([] : PyStr)) = P := by
        rw [if_pos rfl, List.append_nil]
      rw [eQ]
      exact (splitRest_noQF P (fun c hc => ⟨(hP c ((rest1_subset P) hc)).2.2.2.1,
        (hP c ((rest1_subset P) hc)).2.2.2.2⟩)).1
    · rw [if_neg hq0]
      obtain ⟨D, hD, he⟩ := rest1_of_append P q
        (fun c hc => ⟨(hP c hc).2.2.2.1, (hP c hc).2.2.2.2⟩)
      exact (splitRest_query_frag (P ++ 63 :: q) D q hD
        (fun c hc => (hq c hc).2.2.2) he).1
  · by_cases hq0 : q = []
    · subst hq0
      have eQ : P ++ (if ([] : PyStr) = [] then [] else 63 :: ([] : PyStr)) = P := by
        rw [if_pos rfl, List.append_nil]
      rw [eQ]
      exact (splitRest_noQF P (fun c hc => ⟨(hP c ((rest1_subset P) hc)).2.2.2.1,
        (hP c ((rest1_subset P) hc)).2.2.2.2⟩)).2
    · rw [if_neg hq0]
      obtain ⟨D, hD, he⟩ := rest1_of_append P q
        (fun c hc => ⟨(hP c hc).2.2.2.1, (hP c hc).2.2.2.2⟩)
      exact (splitRest_query_frag (P ++ 63 :: q) D q hD
        (fun c hc => (hq c hc).2.2.2) he).2

theorem pyUrlsplit_charfacts (url0 : PyStr) :
    (∀ c ∈ (pyUrlsplit url0 []).netloc,
        (c ∈ url0 ∧ c ≠ 9 ∧ c ≠ 13 ∧ c ≠ 10) ∧ c ≠ 47 ∧ c ≠ 63 ∧ c ≠ 35) ∧
    (∀ c ∈ (pyUrlsplit url0 []).path,
        (c ∈ url0 ∧ c ≠ 9 ∧ c ≠ 13 ∧ c ≠ 10) ∧ c ≠ 63 ∧ c ≠ 35) ∧
    (∀ c ∈ (pyUrlsplit url0 []).query,
        (c ∈ url0 ∧ c ≠ 9 ∧ c ≠ 13 ∧ c ≠ 10) ∧ c ≠ 35) ∧
    ((pyUrlsplit url0 []).scheme = [] ∨
      ((pyUrlsplit url0 []).scheme ≠ [] ∧
        isAsciiAlpha ((pyUrlsplit url0 []).scheme.headD 0) = true ∧
        (∀ c ∈ (pyUrlsplit url0 []).scheme, c ∈ schemeChars) ∧
        pyLower (pyUrlsplit url0 []).scheme = (pyUrlsplit url0 []).scheme)) := by
  unfold pyUrlsplit
  simp only []
  generalize hU : stripControl (lstripC0 url0) = U
  have hurl : ∀ c ∈ U, c ∈ url0 ∧ c ≠ 9 ∧ c ≠ 13 ∧ c ≠ 10 := by
    intro c hc
    rw [← hU] at hc
    obtain ⟨h1, h2⟩ := stripControl_mem hc
    exact ⟨lstripC0_subset _ h1, h2⟩
  rcases hcs : colonScan U with _ | ⟨sc, r⟩
  · simp only []
    refine ⟨?_, ?_, ?_, Or.inl rfl⟩
    · intro c hc
      exact (splitRest_charfacts hurl).1 c hc
    · intro c hc
      exact (splitRest_charfacts hurl).2.1 c hc
    · intro c hc
      exact (splitRest_charfacts hurl).2.2 c hc
  · simp only []
    obtain ⟨i, hi, hheadU, hall, hsc, hr⟩ := colonScan_parts hcs
    have hUne : U ≠ [] := by
      intro e
      rw [e] at hcs
      simp [colonScan, pyFind] at hcs
    have hrsub : ∀ c ∈ r, c ∈ url0 ∧ c ≠ 9 ∧ c ≠ 13 ∧ c ≠ 10 := by
      intro c hc
      apply hurl
      rw [hr] at hc
      exact (List.drop_sublist _ _).subset hc
    refine ⟨?_, ?_, ?_, Or.inr ⟨?_, ?_, ?_, ?_⟩⟩
    · intro c hc
      exact (splitRest_charfacts hrsub).1 c hc
    · intro c hc
      exact (splitRest_charfacts hrsub).2.1 c hc
    · intro c hc
      exact (splitRest_charfacts hrsub).2.2 c hc
    · rw [hsc]
      intro e
      rcases List.take_eq_nil_iff.mp (List.map_eq_nil_iff.mp e) with e2 | e2
      · omega
      · exact hUne e2
    · rw [hsc]
      rcases hUe : U with _ | ⟨a, t⟩
      · exact absurd hUe hUne
      · rcases i with _ | i2
        · omega
        · show isAsciiAlpha (lowerChar a) = true
          apply isAsciiAlpha_lower
          rw [hUe] at hheadU
          exact hheadU
    · rw [hsc]
      intro c hc
      rcases List.mem_map.mp hc with ⟨a, ha, he⟩
      have haS : a ∈ schemeChars :=
        List.elem_iff.mp (List.all_eq_true.mp hall a ha)
      rw [← he]
      exact (schemeChars_mem_props a haS).2.2.2.2.2.2.2.2
    · rw [hsc]
      exact pyLower_pyLower _

theorem pyUrlparse_outer (x d : PyStr) :
    (pyUrlparse x d).scheme = (pyUrlsplit x d).scheme ∧
    (pyUrlparse x d).netloc = (pyUrlsplit x d).netloc ∧
    (pyUrlparse x d).query = (pyUrlsplit x d).query ∧
    (pyUrlparse x d).fragment = (pyUrlsplit x d).fragment := by
  unfold pyUrlparse
  simp only []
  split_ifs with h
  · rcases e : splitParams (pyUrlsplit x d).path with ⟨pp, pr⟩
    exact ⟨rfl, rfl, rfl, rfl⟩
  · exact ⟨rfl, rfl, rfl, rfl⟩

theorem pyUrlparse_path_params_subset (x d : PyStr) :
    (pyUrlparse x d).path ⊆ (pyUrlsplit x d).path ∧
    (pyUrlparse x d).params ⊆ (pyUrlsplit x d).path := by
  unfold pyUrlparse
  simp only []
  split_ifs with h
  · rcases e : splitParams (pyUrlsplit x d).path with ⟨pp, pr⟩
    have hs := splitParams_subset (pyUrlsplit x d).path
    rw [e] at hs
    exact hs
  · exact ⟨fun _ h => h, List.nil_subset _⟩

theorem pyRStrip_subset (c : Nat) (s : PyStr) : pyRStrip c s ⊆ s := by
  intro x hx
  unfold pyRStrip at hx
  rw [List.mem_reverse] at hx
  exact List.mem_reverse.mp ((List.dropWhile_sublist _).subset hx)

theorem normalizePath_props {Props : Nat → Prop} {p : PyStr}
    (h : ∀ c ∈ p, Props c) (h47 : Props 47) : ∀ c ∈ normalizePath p, Props c := by
  unfold normalizePath
  simp only []
  have e : pstr "/" = [47] := rfl
  rw [e]
  split_ifs with h1 h2 h3 <;> intro c hc
  · have hc2 := pyRStrip_subset 47 [47] hc
    rcases List.mem_singleton.mp hc2 with rfl
    exact h47
  · rcases List.mem_singleton.mp hc with rfl
    exact h47
  · exact h c (pyRStrip_subset 47 p hc)
  · exact h c hc

theorem joinWith_mem {sep : Nat} : ∀ {ps : List PyStr} {c : Nat}, c ∈ joinWith sep ps →
    c = sep ∨ ∃ p ∈ ps, c ∈ p := by
  intro ps
  induction ps with
  | nil => intro c hc; cases hc
  | cons p qs ih =>
    intro c hc
    cases qs with
    | nil => exact Or.inr ⟨p, by simp, hc⟩
    | cons q rs =>
      rcases List.mem_append.mp hc with hm | hm
      · exact Or.inr ⟨p, by simp, hm⟩
      · rcases List.mem_cons.mp hm with rfl | hm
        · exact Or.inl rfl
        · rcases ih hm with e | ⟨x, hx, hcx⟩
          · exact Or.inl e
          · exact Or.inr ⟨x, List.mem_cons_of_mem _ hx, hcx⟩

theorem pyUrlencode_chars {fp : List (PyStr × PyStr)}
    (hfp : ∀ kv ∈ fp, validStr kv.1 ∧ validStr kv.2) :
    ∀ c ∈ pyUrlencode fp, 32 < c ∧ c < 128 ∧ c ≠ 63 ∧ c ≠ 35 ∧ c ≠ 58 ∧
      c ≠ 9 ∧ c ≠ 13 ∧ c ≠ 10 := by
  intro c hc
  rcases joinWith_mem hc with rfl | ⟨p, hp, hcp⟩
  · omega
  · rcases List.mem_map.mp hp with ⟨kv, hkv, he⟩
    subst he
    rcases List.mem_append.mp hcp with hm | hm
    · have := quotePlus_chars (hfp kv hkv).1 c hm
      omega
    · rcases List.mem_cons.mp hm with rfl | hm
      · omega
      · have := quotePlus_chars (hfp kv hkv).2 c hm
        omega

theorem pyUrlsplit_https_scheme (u : PyStr) :
    (pyUrlsplit (pstr "https://" ++ u) []).scheme = pstr "https" := by
  have e8 : pstr "https://" = [104, 116, 116, 112, 115, 58, 47, 47] := rfl
  unfold pyUrlsplit
  simp only []
  rw [e8]
  have hl : lstripC0 (([104, 116, 116, 112, 115, 58, 47, 47] : PyStr) ++ u) =
      ([104, 116, 116, 112, 115, 58, 47, 47] : PyStr) ++ u := by
    apply lstripC0_eq_self
    exact (by omega : (32 : Nat) < 104)
  rw [hl]
  have hsc : stripControl (([104, 116, 116, 112, 115, 58, 47, 47] : PyStr) ++ u) =
      ([104, 116, 116, 112, 115] : PyStr) ++ 58 :: (47 :: 47 :: stripControl u) := by
    unfold stripControl
    rw [List.filter_append]
    rfl
  rw [hsc]
  rw [colonScan_scheme (47 :: 47 :: stripControl u) (by decide) (by decide) (by decide)]
  simp only []
  rfl

theorem pyUrlunparse_decomp (Props : Nat → Prop) (r : ParseResult)
    (hs : r.scheme ≠ []) (hfrag : r.fragment = [])
    (h47 : Props 47) (h59 : Props 59)
    (hnl : ∀ c ∈ r.netloc, Props c) (hpath : ∀ c ∈ r.path, Props c)
    (hparams : ∀ c ∈ r.params, Props c) :
    ∃ P, pyUrlunparse r = r.scheme ++ 58 ::
        (P ++ if r.query = [] then [] else 63 :: r.query) ∧
      ∀ c ∈ P, Props c := by
  unfold pyUrlunparse pyUrlunsplit
  simp only []
  have hurl1 : ∀ c ∈ (if r.params ≠ [] then r.path ++ 59 :: r.params else r.path),
      Props c := by
    split_ifs
    · intro c hc
      rcases List.mem_append.mp hc with hm | hm
      · exact hpath c hm
      · rcases List.mem_cons.mp hm with rfl | hm
        · exact h59
        · exact hparams c hm
    · exact hpath
  generalize hu1 : (if r.params ≠ [] then r.path ++ 59 :: r.params else r.path) = url1 at *
  have hurl2 : ∀ c ∈ (if (r.netloc ≠ [] ∨ (r.scheme ≠ [] ∧ r.scheme ∈ usesNetloc ∧
        ¬ pyStartsWith url1 (pstr "//") = true)) then
      pstr "//" ++ r.netloc ++ (if url1 ≠ [] ∧ ¬ pyStartsWith url1 (pstr "/") = true
        then 47 :: url1 else url1)
    else url1), Props c := by
    split_ifs with c1 c2
    · intro c hc
      rcases List.mem_append.mp hc with hm | hm
      · rcases List.mem_append.mp hm with hm2 | hm2
        · rcases List.mem_cons.mp hm2 with rfl | hm2
          · exact h47
          · rcases List.mem_singleton.mp hm2 with rfl
            exact h47
        · exact hnl c hm2
      · rcases List.mem_cons.mp hm with rfl | hm
        · exact h47
        · exact hurl1 c hm
    · intro c hc
      rcases List.mem_append.mp hc with hm | hm
      · rcases List.mem_append.mp hm with hm2 | hm2
        · rcases List.mem_cons.mp hm2 with rfl | hm2
          · exact h47
          · rcases List.mem_singleton.mp hm2 with rfl
            exact h47
        · exact hnl c hm2
      · exact hurl1 c hm
    · exact hurl1
  generalize hu2 : (if (r.netloc ≠ [] ∨ (r.scheme ≠ [] ∧ r.scheme ∈ usesNetloc ∧
        ¬ pyStartsWith url1 (pstr "//") = true)) then
      pstr "//" ++ r.netloc ++ (if url1 ≠ [] ∧ ¬ pyStartsWith url1 (pstr "/") = true
        then 47 :: url1 else url1)
    else url1) = url2 at *
  rw [if_pos hs]
  rw [if_neg (by rw [hfrag]; exact fun h => h rfl)]
  by_cases hq0 : r.query = []
  · rw [if_neg (by rw [hq0]; exact fun h => h rfl)]
    refine ⟨url2, ?_, hurl2⟩
    rw [if_pos hq0, List.append_nil]
  · rw [if_pos hq0]
    refine ⟨url2, ?_, hurl2⟩
    rw [if_neg hq0]
    simp

theorem canonParts (url0 : PyStr) (hvalid : validStr url0)
    (hsch : (pyUrlparse url0 []).scheme ≠ []) :
    ∃ P, pyUrlunparse { pyUrlparse url0 [] with
        fragment := [],
        query := pyUrlencode ((pyParseQsl (pyUrlparse url0 []).query).filter
          (fun kv => pyLower kv.1 ∉ trackingParams)),
        path := normalizePath (pyUrlparse url0 []).path } =
      (pyUrlparse url0 []).scheme ++ 58 :: (P ++
        (if pyUrlencode ((pyParseQsl (pyUrlparse url0 []).query).filter
            (fun kv => pyLower kv.1 ∉ trackingParams)) = [] then []
        else 63 :: pyUrlencode ((pyParseQsl (pyUrlparse url0 []).query).filter
          (fun kv => pyLower kv.1 ∉ trackingParams)))) ∧
      (∀ c ∈ P, c ≠ 9 ∧ c ≠ 13 ∧ c ≠ 10 ∧ c ≠ 35 ∧ c ≠ 63) ∧
      isAsciiAlpha ((pyUrlparse url0 []).scheme.headD 0) = true ∧
      (∀ c ∈ (pyUrlparse url0 []).scheme, c ∈ schemeChars) ∧
      pyLower (pyUrlparse url0 []).scheme = (pyUrlparse url0 []).scheme ∧
      (∀ c ∈ pyUrlencode ((pyParseQsl (pyUrlparse url0 []).query).filter
          (fun kv => pyLower kv.1 ∉ trackingParams)),
        c ≠ 9 ∧ c ≠ 13 ∧ c ≠ 10 ∧ c ≠ 35) ∧
      pyUrlencode ((pyParseQsl (pyUrlencode ((pyParseQsl (pyUrlparse url0 []).query).filter
          (fun kv => pyLower kv.1 ∉ trackingParams)))).filter
        (fun kv => pyLower kv.1 ∉ trackingParams)) =
      pyUrlencode ((pyParseQsl (pyUrlparse url0 []).query).filter
        (fun kv => pyLower kv.1 ∉ trackingParams)) := by
  obtain ⟨fn, fpth, fq, fsch⟩ := pyUrlsplit_charfacts url0
  obtain ⟨o1, o2, o3, o4⟩ := pyUrlparse_outer url0 []
  obtain ⟨ps1, ps2⟩ := pyUrlparse_path_params_subset url0 []
  have hschS : (pyUrlsplit url0 []).scheme ≠ [] := o1 ▸ hsch
  rcases fsch with he | hgood
  · exact absurd he hschS
  obtain ⟨_, hg2, hg3, hg4⟩ := hgood
  have hqv : validStr (pyUrlparse url0 []).query := by
    rw [o3]
    intro c hc
    exact hvalid c (fq c hc).1.1
  have hpairs : ∀ kv ∈ (pyParseQsl (pyUrlparse url0 []).query).filter
      (fun kv => pyLower kv.1 ∉ trackingParams), validStr kv.1 ∧ validStr kv.2 :=
    fun kv hkv => pyParseQsl_valid hqv kv (List.mem_filter.mp hkv).1
  have hqchars := pyUrlencode_chars hpairs
  have hqstable : pyUrlencode ((pyParseQsl (pyUrlencode ((pyParseQsl
        (pyUrlparse url0 []).query).filter
        (fun kv => pyLower kv.1 ∉ trackingParams)))).filter
      (fun kv => pyLower kv.1 ∉ trackingParams)) =
      pyUrlencode ((pyParseQsl (pyUrlparse url0 []).query).filter
        (fun kv => pyLower kv.1 ∉ trackingParams)) := by
    rw [pyParseQsl_urlencode _ hpairs,
      List.filter_eq_self.mpr (fun a ha => (List.mem_filter.mp ha).2)]
  obtain ⟨P, heq, hP⟩ := pyUrlunparse_decomp
    (fun c => c ≠ 9 ∧ c ≠ 13 ∧ c ≠ 10 ∧ c ≠ 35 ∧ c ≠ 63)
    { pyUrlparse url0 [] with
      fragment := [],
      query := pyUrlencode ((pyParseQsl (pyUrlparse url0 []).query).filter
        (fun kv => pyLower kv.1 ∉ trackingParams)),
      path := normalizePath (pyUrlparse url0 []).path }
    hsch rfl (by norm_num) (by norm_num)
    (by
      intro c hc
      have hc2 : c ∈ (pyUrlparse url0 []).netloc := hc
      rw [o2] at hc2
      have := fn c hc2
      exact ⟨this.1.2.1, this.1.2.2.1, this.1.2.2.2, this.2.2.2, this.2.2.1⟩)
    (by
      intro c hc
      have hc2 : c ∈ normalizePath (pyUrlparse url0 []).path := hc
      have hprops : ∀ x ∈ (pyUrlparse url0 []).path,
          x ≠ 9 ∧ x ≠ 13 ∧ x ≠ 10 ∧ x ≠ 35 ∧ x ≠ 63 := by
        intro x hx
        have hx2 := fpth x (ps1 hx)
        exact ⟨hx2.1.2.1, hx2.1.2.2.1, hx2.1.2.2.2, hx2.2.2, hx2.2.1⟩
      exact normalizePath_props hprops (by norm_num) c hc2)
    (by
      intro c hc
      have hc2 : c ∈ (pyUrlparse url0 []).params := hc
      have hx2 := fpth c (ps2 hc2)
      exact ⟨hx2.1.2.1, hx2.1.2.2.1, hx2.1.2.2.2, hx2.2.2, hx2.2.1⟩)
  refine ⟨P, heq, hP, ?_, ?_, ?_, ?_, hqstable⟩
  · rw [o1]
    exact hg2
  · rw [o1]
    exact hg3
  · rw [o1]
    exact hg4
  · intro c hc
    have := hqchars c hc
    omega

theorem normalizeUrl_decomp (u : PyStr) (hu : validStr u) :
    ∃ S P q, normalizeUrl u = S ++ 58 :: (P ++ if q = [] then [] else 63 :: q) ∧
      S ≠ [] ∧ isAsciiAlpha (S.headD 0) = true ∧ (∀ c ∈ S, c ∈ schemeChars) ∧
      pyLower S = S ∧
      (∀ c ∈ P, c ≠ 9 ∧ c ≠ 13 ∧ c ≠ 10 ∧ c ≠ 35 ∧ c ≠ 63) ∧
      (∀ c ∈ q, c ≠ 9 ∧ c ≠ 13 ∧ c ≠ 10 ∧ c ≠ 35) ∧
      pyUrlencode ((pyParseQsl q).filter (fun kv => pyLower kv.1 ∉ trackingParams)) = q := by
  unfold normalizeUrl
  simp only []
  by_cases hA : (pyUrlparse u []).scheme = []
  · rw [if_pos hA]
    have hv2 : validStr (pstr "https://" ++ u) := by
      intro c hc
      rcases List.mem_append.mp hc with hm | hm
      · exact (by decide : ∀ c ∈ pstr "https://", validScalar c) c hm
      · exact hu c hm
    have hsch2 : (pyUrlparse (pstr "https://" ++ u) []).scheme ≠ [] := by
      rw [(pyUrlparse_outer (pstr "https://" ++ u) []).1, pyUrlsplit_https_scheme]
      decide
    obtain ⟨P, heq, hP, hg2, hg3, hg4, hqf, hqs⟩ := canonParts (pstr "https://" ++ u) hv2 hsch2
    exact ⟨_, P, _, heq, hsch2, hg2, hg3, hg4, hP, hqf, hqs⟩
  · rw [if_neg hA]
    obtain ⟨P, heq, hP, hg2, hg3, hg4, hqf, hqs⟩ := canonParts u hu hA
    exact ⟨_, P, _, heq, hA, hg2, hg3, hg4, hP, hqf, hqs⟩

/-- Claim C3 (counterexample): canonicalisation is not idempotent on all
URLs.  On "https://a.com//" the first pass rstrips the path to the empty
string, and the second pass turns the now-empty path into "/", so the
two applications differ. -/
theorem c3_counterexample :
    normalizeUrl (normalizeUrl (pstr "https://a.com//")) ≠
      normalizeUrl (pstr "https://a.com//") := by decide

/-- Claim C3 (amended): canonicalisation is idempotent at every URL of
Unicode scalar values whose canonical form (i) is parse/unparse-stable
and (ii) has a non-empty parsed path that is either exactly "/" or does
not end in "/".  The original claim, idempotence for all URLs, fails on
"https://a.com//". -/
theorem c3_amended (u : PyStr) (hvalid : validStr u)
    (hstable : pyUrlunparse (pyUrlparse (normalizeUrl u) []) = normalizeUrl u)
    (hpath1 : (pyUrlparse (normalizeUrl u) []).path ≠ [])
    (hpath2 : (pyUrlparse (normalizeUrl u) []).path = pstr "/" ∨
      pyEndsWith (pyUrlparse (normalizeUrl u) []).path (pstr "/") = false) :
    normalizeUrl (normalizeUrl u) = normalizeUrl u := by
  obtain ⟨S, P, q, heq, hS1, hS2, hS3, hS4, hP, hq, hqs⟩ := normalizeUrl_decomp u hvalid
  obtain ⟨s1, s2, s3⟩ := pyUrlsplit_recompose P q hS1 hS2 hS3 hS4 hP hq
  obtain ⟨o1, o2, o3, o4⟩ :=
    pyUrlparse_outer (S ++ 58 :: (P ++ if q = [] then [] else 63 :: q)) []
  have hsch : (pyUrlparse (normalizeUrl u) []).scheme = S := by
    rw [heq, o1, s1]
  have hfrag : (pyUrlparse (normalizeUrl u) []).fragment = [] := by
    rw [heq, o4, s3]
  have hquery : (pyUrlparse (normalizeUrl u) []).query = q := by
    rw [heq, o3, s2]
  revert hstable hpath1 hpath2 hsch hfrag hquery
  generalize normalizeUrl u = V
  intro hstable hpath1 hpath2 hsch hfrag hquery
  unfold normalizeUrl
  simp only []
  rw [if_neg (by rw [hsch]; exact hS1)]
  revert hstable hpath1 hpath2 hsch hfrag hquery
  generalize hR : pyUrlparse V [] = R
  intro hstable hpath1 hpath2 hsch hfrag hquery
  obtain ⟨Rs, Rn, Rp, Rpar, Rq, Rf⟩ := R
  have hfrag2 : Rf = [] := hfrag
  have hq2 : Rq = q := hquery
  subst hfrag2
  subst hq2
  show pyUrlunparse ⟨Rs, Rn, normalizePath Rp, Rpar,
    pyUrlencode ((pyParseQsl Rq).filter (fun kv => pyLower kv.1 ∉ trackingParams)), []⟩ = V
  rw [hqs]
  have hp1 : Rp ≠ [] := hpath1
  have hp2 : Rp = pstr "/" ∨ pyEndsWith Rp (pstr "/") = false := hpath2
  have hnp : normalizePath Rp = Rp := by
    unfold normalizePath
    simp only []
    rw [if_neg hp1]
    rcases hp2 with hcase | hcase
    · rw [if_neg (fun h => h.1 hcase)]
    · rw [if_neg (fun h => absurd h.2 (by rw [hcase]; simp))]
  rw [hnp]
  exact hstable

/-- Witness for c3_amended: the concrete URL
"https://a.com/x?a=1&utm_source=z" satisfies every hypothesis, and
canonicalisation is idempotent at it. -/
theorem c3_witness :
    validStr (pstr "https://a.com/x?a=1&utm_source=z") ∧
    pyUrlunparse (pyUrlparse (normalizeUrl (pstr "https://a.com/x?a=1&utm_source=z")) []) =
      normalizeUrl (pstr "https://a.com/x?a=1&utm_source=z") ∧
    (pyUrlparse (normalizeUrl (pstr "https://a.com/x?a=1&utm_source=z")) []).path ≠ [] ∧
    normalizeUrl (normalizeUrl (pstr "https://a.com/x?a=1&utm_source=z")) =
      normalizeUrl (pstr "https://a.com/x?a=1&utm_source=z") :=
  ⟨by decide, by decide, by decide,
    c3_amended (pstr "https://a.com/x?a=1&utm_source=z") (by decide) (by decide) (by decide)
      (Or.inr (by decide))⟩

end Shady
